import Mathlib

/-!
# ADTMap_Impl_Template: the conformance and stress driver `main.c`

The repository holds one source file, `main.c`, the driver that exercises a
map ADT through the interface of `map.h`.  The map implementation itself is not
part of the sources, so the driver is embedded here over an abstract
implementation `MapImpl σ`: a state type `σ` (everything the implementation
keeps behind the `PtMap` handle) and one function per operation.

Conventions of the embedding

* C `int` values are mathematical integers (`Int`); `isCInt` singles out the
  values an `int` can hold.  The only place where the width matters is the
  comparison of the `int` variable `size` with the `size_t` value
  `sizeof(keys)/sizeof(int)` (line 78), modelled with the explicit conversion
  `toSizeT`.
* An out-parameter (`int *`) is modelled by `Option Int`: `some v` when the
  operation stored `v` through the pointer, `none` when it left the caller's
  variable untouched.
* Every call of a map operation and every access to the local arrays `keys`
  and `values` is recorded, in order, in a trace of `Event`s.
* `printf`, `clock` and `free` have no effect on the map and are not modelled.
-/

namespace ADTMap

/-! ## The interface of `map.h` -/

/-- Modelled from the spec: the status codes of `map.h`, which is not among the
sources.  The driver only ever compares a status with `MAP_OK` and `MAP_EMPTY`;
`MAP_OTHER` stands for every other code an implementation may return. -/
inductive Status
  | MAP_OK
  | MAP_EMPTY
  | MAP_OTHER (code : Nat)
  deriving DecidableEq, Repr

/-- Modelled from the spec: the operations of `map.h` as the driver calls them,
for an implementation with internal state `σ`.  `mapCreate` yields `none` for a
`NULL` handle.  Each operation returns its C result, what it stored through its
out-parameter (if anything) and the new internal state; nothing is assumed
about how these are computed.  `mapDestroy`, the last call of `main`, has no
observed effect and appears only as an event of the trace. -/
structure MapImpl (σ : Type) where
  mapCreate : Option σ
  mapClear : σ → σ
  mapPut : σ → Int → Int → Status × σ
  mapGet : σ → Int → Status × Option Int × σ
  mapRemove : σ → Int → Status × Option Int × σ
  mapContains : σ → Int → Bool × σ
  mapSize : σ → Option Int × σ
  mapPrint : σ → σ

/-- The functions of `main.c` that `main` calls. -/
inductive Fn
  | testKeyAccessPolicy
  | testStress
  deriving DecidableEq, Repr

/-- One observable step of the driver: a call of a map operation (with its
arguments and what came back), an access to `keys[i]` or `values[i]`, or the
call of one of the driver's own functions from `main`. -/
inductive Event
  | mapCreate (isNull : Bool)
  | mapDestroy
  | mapClear
  | mapPut (key value : Int) (st : Status)
  | mapGet (key : Int) (st : Status) (out : Option Int)
  | mapRemove (key : Int) (st : Status) (out : Option Int)
  | mapContains (key : Int) (res : Bool)
  | mapSize (out : Option Int)
  | mapPrint
  | readKeys (i : Nat)
  | readValues (i : Nat)
  | writeValues (i : Nat)
  | call (f : Fn)
  deriving DecidableEq, Repr

/-! ## Machine integers -/

/-- The value fits a C `int` (32 bits, two's complement). -/
def isCInt (x : Int) : Prop := -2147483648 ≤ x ∧ x ≤ 2147483647

instance (x : Int) : Decidable (isCInt x) := by
  unfold isCInt; infer_instance

/-- Conversion of an `int` to `size_t` (64 bits) by the usual arithmetic
conversions: reduction modulo `2^64`. -/
def toSizeT (x : Int) : Int := x % 18446744073709551616

/-! ## Loops -/

/-- The loop `for (int i = start; i < start + n; i++) body`, where the body
reports `false` when it leaves the loop early (`break` or `return`), in which
case the state at that point is the result. -/
def forRange {S : Type} (body : Nat → S → Bool × S) : Nat → Nat → S → Bool × S
  | _, 0, s => (true, s)
  | i, n + 1, s =>
    match body i s with
    | (true, s') => forRange body (i + 1) n s'
    | (false, s') => (false, s')

/-- The loop `for (int i = start; i < start + n; i++) body` for a body that
never leaves the loop early. -/
def forEach {S : Type} (body : Nat → S → S) : Nat → Nat → S → S
  | _, 0, s => s
  | i, n + 1, s => forEach body (i + 1) n (body i s)

/-- Sequencing with early `return false`: the rest of the function runs only
when the part before it did not return. -/
def andThen {S : Type} (r : Bool × S) (f : S → Bool × S) : Bool × S :=
  if r.1 then f r.2 else (false, r.2)

/-! ## `testKeyAccessPolicy` (lines 28-149) -/

/-- The array `keys` of line 35. -/
def keys : List Int := [1, 4, 7, 2, 8, 5, 19]

/-- The array `values` as initialised at line 36. -/
def values : List Int := [0, 1, 2, 3, 4, 5, 6]

/-- The locals of `testKeyAccessPolicy` together with the state of the map
behind the handle and the trace recorded so far. -/
structure Frame (σ : Type) where
  map : σ
  ret : Int
  size : Int
  values : List Int
  trace : List Event

variable {σ : Type}

/-- Append an event to the trace. -/
def Frame.emit (fr : Frame σ) (e : Event) : Frame σ :=
  { fr with trace := fr.trace ++ [e] }

/-- The call `mapContains(map, keys[i])`: the frame after it and its result. -/
def callContains (M : MapImpl σ) (i : Nat) (fr : Frame σ) : Bool × Frame σ :=
  let fr1 := fr.emit (.readKeys i)
  let r := M.mapContains fr1.map (keys.getD i 0)
  (r.1, { fr1 with map := r.2 }.emit (.mapContains (keys.getD i 0) r.1))

/-- The call `mapRemove(map, keys[i], &ret)`: its status and the frame after. -/
def callRemove (M : MapImpl σ) (i : Nat) (fr : Frame σ) : Status × Frame σ :=
  let fr1 := fr.emit (.readKeys i)
  let r := M.mapRemove fr1.map (keys.getD i 0)
  (r.1, { fr1 with map := r.2.2, ret := r.2.1.getD fr1.ret }.emit
    (.mapRemove (keys.getD i 0) r.1 r.2.1))

/-- The call `mapGet(map, keys[i], &ret)`: its status and the frame after. -/
def callGet (M : MapImpl σ) (i : Nat) (fr : Frame σ) : Status × Frame σ :=
  let fr1 := fr.emit (.readKeys i)
  let r := M.mapGet fr1.map (keys.getD i 0)
  (r.1, { fr1 with map := r.2.2, ret := r.2.1.getD fr1.ret }.emit
    (.mapGet (keys.getD i 0) r.1 r.2.1))

/-- The call `mapPut(map, keys[i], values[i])`: its status and the frame
after. -/
def callPut (M : MapImpl σ) (i : Nat) (fr : Frame σ) : Status × Frame σ :=
  let fr1 := (fr.emit (.readKeys i)).emit (.readValues i)
  let r := M.mapPut fr1.map (keys.getD i 0) (fr1.values.getD i 0)
  (r.1, { fr1 with map := r.2 }.emit (.mapPut (keys.getD i 0) (fr1.values.getD i 0) r.1))

/-- The call `mapSize(map, &size)`. -/
def callSize (M : MapImpl σ) (fr : Frame σ) : Frame σ :=
  let r := M.mapSize fr.map
  { fr with map := r.2, size := r.1.getD fr.size }.emit (.mapSize r.1)

/-- The call `mapPrint(map)`. -/
def callPrint (M : MapImpl σ) (fr : Frame σ) : Frame σ :=
  { fr with map := M.mapPrint fr.map }.emit .mapPrint

/-- The read `values[i]` in a comparison with `ret`. -/
def retDiffers (i : Nat) (fr : Frame σ) : Bool × Frame σ :=
  (fr.ret != fr.values.getD i 0, fr.emit (.readValues i))

/-- Body of the loop of lines 44-57. -/
def emptyMapBody (M : MapImpl σ) (i : Nat) (fr : Frame σ) : Bool × Frame σ :=
  let c := callContains M i fr
  if c.1 then (false, c.2)
  else
    let r := callRemove M i c.2
    if r.1 ≠ Status.MAP_EMPTY then (false, r.2) else (true, r.2)

/-- Lines 31-64: `mapClear`, then the checks on the just-cleared map. -/
def emptyMapPhase (M : MapImpl σ) (fr : Frame σ) : Bool × Frame σ :=
  forRange (emptyMapBody M) 0 keys.length
    ({ fr with map := M.mapClear fr.map }.emit .mapClear)

/-- Body of the loop of lines 67-72. -/
def putBody (M : MapImpl σ) (i : Nat) (fr : Frame σ) : Bool × Frame σ :=
  let r := callPut M i fr
  if r.1 ≠ Status.MAP_OK then (false, r.2) else (true, r.2)

/-- Lines 66-72: the insertion of the seven mappings. -/
def putPhase (M : MapImpl σ) (fr : Frame σ) : Bool × Frame σ :=
  forRange (putBody M) 0 keys.length fr

/-- Lines 74-83: `mapSize` and the comparison of `size` with
`sizeof(keys)/sizeof(int)`, carried out in `size_t`. -/
def sizePhase (M : MapImpl σ) (fr : Frame σ) : Bool × Frame σ :=
  let fr1 := callSize M fr
  if toSizeT fr1.size = toSizeT keys.length then (true, fr1) else (false, fr1)

/-- Body of the loop of lines 86-98. -/
def lookupBody (M : MapImpl σ) (i : Nat) (fr : Frame σ) : Bool × Frame σ :=
  let c := callContains M i fr
  if !c.1 then (false, c.2)
  else
    let g := callGet M i c.2
    if g.1 ≠ Status.MAP_OK then (false, g.2)
    else
      let d := retDiffers i g.2
      if d.1 then (false, d.2) else (true, d.2)

/-- Lines 85-106: the loop over `i < size` (a comparison of two `int`s). -/
def lookupPhase (M : MapImpl σ) (fr : Frame σ) : Bool × Frame σ :=
  forRange (lookupBody M) 0 fr.size.toNat fr

/-- Lines 109-110: `values[0] = 100; mapPut(map, keys[0], values[0]);`. -/
def replacePut (M : MapImpl σ) (fr : Frame σ) : Bool × Frame σ :=
  let fr1 := { fr with values := fr.values.set 0 100 }.emit (.writeValues 0)
  (true, (callPut M 0 fr1).2)

/-- Lines 111-116: `mapGet(map, keys[0], &ret)` and the check of `ret`. -/
def replaceCheck (M : MapImpl σ) (fr : Frame σ) : Bool × Frame σ :=
  let g := callGet M 0 fr
  let d := retDiffers 0 g.2
  if d.1 then (false, d.2) else (true, d.2)

/-- Body of the loop of lines 121-132. -/
def removalBody (M : MapImpl σ) (i : Nat) (fr : Frame σ) : Bool × Frame σ :=
  let r := callRemove M i fr
  let d := retDiffers i r.2
  if d.1 then (false, d.2)
  else
    let c := callContains M i d.2
    if c.1 then (false, c.2) else (true, c.2)

/-- Lines 118-132: `mapPrint`, then the removal of the seven mappings. -/
def removalPhase (M : MapImpl σ) (fr : Frame σ) : Bool × Frame σ :=
  forRange (removalBody M) 0 keys.length (callPrint M fr)

/-- Lines 134-148: the final `mapSize`, the check `size == 0`, `mapPrint`. -/
def finalPhase (M : MapImpl σ) (fr : Frame σ) : Bool × Frame σ :=
  let fr1 := callSize M fr
  if fr1.size = 0 then (true, callPrint M fr1) else (false, fr1)

/-- Lines 31-83: everything up to and including the check of the size after
the seven insertions.  The flag tells whether the check was reached and
passed. -/
def uptoSizeCheck (M : MapImpl σ) (fr : Frame σ) : Bool × Frame σ :=
  andThen (andThen (emptyMapPhase M fr) (putPhase M)) (sizePhase M)

/-- Lines 31-110: everything up to and including the replacing
`mapPut(map, keys[0], values[0])`.  The flag tells whether that call was
reached. -/
def uptoReplacingPut (M : MapImpl σ) (fr : Frame σ) : Bool × Frame σ :=
  andThen (andThen (uptoSizeCheck M fr) (lookupPhase M)) (replacePut M)

/-- Lines 31-148: the body of `testKeyAccessPolicy` for a non-`NULL` map. -/
def testKeyAccessPolicyBody (M : MapImpl σ) (fr : Frame σ) : Bool × Frame σ :=
  andThen (andThen (andThen (uptoReplacingPut M fr) (replaceCheck M)) (removalPhase M))
    (finalPhase M)

/-- The frame on entry: `ret` and `size` are declared without initialiser, so
they start with whatever values `ret0` and `size0` the stack holds. -/
def initFrame (s : σ) (ret0 size0 : Int) : Frame σ :=
  { map := s, ret := ret0, size := size0, values := values, trace := [] }

/-- What a run of `testKeyAccessPolicy` yields: its result, the trace of the
run, and the state of the map afterwards (`none` for a `NULL` handle). -/
structure Outcome (σ : Type) where
  passed : Bool
  trace : List Event
  map : Option σ

/-- `bool testKeyAccessPolicy(PtMap map)` (lines 28-149). -/
def testKeyAccessPolicy (M : MapImpl σ) (map : Option σ) (ret0 size0 : Int) : Outcome σ :=
  match map with
  | none => { passed := false, trace := [], map := none }
  | some s =>
    let r := testKeyAccessPolicyBody M (initFrame s ret0 size0)
    { passed := r.1, trace := r.2.trace, map := some r.2.map }

/-! ## `createSequentialShuffledArray` (lines 151-169) -/

/-- Body of the loop of lines 154-156: `arr[i] = i`. -/
def fillBody (i : Nat) (arr : List Int) : List Int :=
  arr.set i (i : Int)

/-- Body of the shuffle loop of lines 159-166.  The two calls of `rand()` in
iteration `i` are the calls number `2 * i` and `2 * i + 1` since `srand`;
`%` is C's remainder, which truncates towards zero.  An index outside the
block is undefined behaviour: the body then reports `false`. -/
def shuffleBody (rand : Nat → Int) (size : Int) (i : Nat) (arr : List Int) : Bool × List Int :=
  let index1 := (rand (2 * i)).tmod size
  let index2 := (rand (2 * i + 1)).tmod size
  if 0 ≤ index1 ∧ index1 < arr.length ∧ 0 ≤ index2 ∧ index2 < arr.length then
    let aux := arr.getD index1.toNat 0
    let arr1 := arr.set index1.toNat (arr.getD index2.toNat 0)
    (true, arr1.set index2.toNat aux)
  else (false, arr)

/-- `int* createSequentialShuffledArray(int size)`: the block returned, or
`none` when an access falls outside it.  `malloc` is taken to succeed and to
give `size` cells (their initial content, here `0`, is overwritten by the
first loop); `size / 2` is C's truncating division. -/
def createSequentialShuffledArray (rand : Nat → Int) (size : Int) : Option (List Int) :=
  let arr := List.replicate size.toNat (0 : Int)
  let filled := forEach fillBody 0 size.toNat arr
  let shuffled := forRange (shuffleBody rand size) 0 (size.tdiv 2).toNat filled
  if shuffled.1 then some shuffled.2 else none

/-! ## `testStress` (lines 171-207) -/

/-- The constant of line 7. -/
def STRESS_TEST_SIZE : Int := 100000

/-- Body of the loop of lines 188-190: `mapPut(map, testArr[i], testArr[i])`,
the status being discarded.  The state is the map and the trace so far. -/
def stressPutBody (M : MapImpl σ) (testArr : List Int) (i : Nat) (st : σ × List Event) :
    σ × List Event :=
  let r := M.mapPut st.1 (testArr.getD i 0) (testArr.getD i 0)
  (r.2, st.2 ++ [.mapPut (testArr.getD i 0) (testArr.getD i 0) r.1])

/-- Body of the loop of lines 198-200: `mapContains(map, i)`, the result being
discarded. -/
def stressContainsBody (M : MapImpl σ) (i : Nat) (st : σ × List Event) : σ × List Event :=
  let r := M.mapContains st.1 (i : Int)
  (r.2, st.2 ++ [.mapContains (i : Int) r.1])

/-- Lines 176-190 for a given array and `n` mappings: `mapClear`, then the
insertion loop. -/
def stressInsert (M : MapImpl σ) (testArr : List Int) (n : Nat) (s : σ) : σ × List Event :=
  forEach (stressPutBody M testArr) 0 n (M.mapClear s, [Event.mapClear])

/-- Lines 196-200 for `n` mappings: the search loop. -/
def stressSearch (M : MapImpl σ) (n : Nat) (st : σ × List Event) : σ × List Event :=
  forEach (stressContainsBody M) 0 n st

/-- The body of `testStress` with the constant `STRESS_TEST_SIZE` as the
parameter `size`: the trace of the run and the state of the map afterwards, or
`none` when building the array runs into undefined behaviour.  `rand` gives
the results of the calls of `rand()` after `srand(123456789)`. -/
def testStressOfSize (M : MapImpl σ) (rand : Nat → Int) (size : Int) (map : Option σ) :
    Option (List Event × Option σ) :=
  match map with
  | none => some ([], none)
  | some s =>
    match createSequentialShuffledArray rand size with
    | none => none
    | some testArr =>
      some ((stressSearch M size.toNat (stressInsert M testArr size.toNat s)).2,
        some (stressSearch M size.toNat (stressInsert M testArr size.toNat s)).1)

/-- `void testStress(PtMap map)` (lines 171-207). -/
def testStress (M : MapImpl σ) (rand : Nat → Int) (map : Option σ) :
    Option (List Event × Option σ) :=
  testStressOfSize M rand STRESS_TEST_SIZE map

/-! ## `main` (lines 13-26) -/

/-- `int main()`: the trace of the whole run (in every completed run the exit
code is `EXIT_SUCCESS`), or `none` when `testStress` runs into undefined
behaviour. -/
def main (M : MapImpl σ) (rand : Nat → Int) (ret0 size0 : Int) : Option (List Event) :=
  let map := M.mapCreate
  let t := testKeyAccessPolicy M map ret0 size0
  let pre := [Event.mapCreate map.isNone, Event.call Fn.testKeyAccessPolicy] ++ t.trace
  if t.passed then
    match testStress M rand t.map with
    | none => none
    | some s => some (pre ++ [Event.call Fn.testStress] ++ s.1 ++ [Event.mapDestroy])
  else some (pre ++ [Event.mapDestroy])

/-! ## Implementations used as concrete inputs -/

/-- A conforming implementation: the map is an association list without
duplicate keys. -/
def refImpl : MapImpl (AList (fun _ : Int => Int)) where
  mapCreate := some ∅
  mapClear := fun _ => ∅
  mapPut := fun m k v => (Status.MAP_OK, m.insert k v)
  mapGet := fun m k =>
    match m.lookup k with
    | some v => (Status.MAP_OK, some v, m)
    | none => (Status.MAP_EMPTY, none, m)
  mapRemove := fun m k =>
    match m.lookup k with
    | some v => (Status.MAP_OK, some v, m.erase k)
    | none => (Status.MAP_EMPTY, none, m)
  mapContains := fun m k => ((m.lookup k).isSome, m)
  mapSize := fun m => (some (m.keys.length : Int), m)
  mapPrint := fun m => m

/-- A faulty implementation: `mapRemove` deletes the entry of a stored key but
stores its value through the out-parameter only when the map holds fewer than
seven entries. -/
def lazyImpl : MapImpl (List (Int × Int)) where
  mapCreate := some []
  mapClear := fun _ => []
  mapPut := fun l k v =>
    (Status.MAP_OK, if (l.lookup k).isSome then l.map (fun e => if e.1 = k then (k, v) else e)
      else (k, v) :: l)
  mapGet := fun l k =>
    match l.lookup k with
    | some v => (Status.MAP_OK, some v, l)
    | none => (Status.MAP_EMPTY, none, l)
  mapRemove := fun l k =>
    match l.lookup k with
    | some v =>
      (Status.MAP_OK, if 7 ≤ l.length then none else some v, l.filter (fun e => e.1 != k))
    | none => (Status.MAP_EMPTY, none, l)
  mapContains := fun l k => ((l.lookup k).isSome, l)
  mapSize := fun l => (some (l.length : Int), l)
  mapPrint := fun l => l

/-- An implementation whose `mapCreate` fails. -/
def nullImpl : MapImpl Unit where
  mapCreate := none
  mapClear := fun _ => ()
  mapPut := fun _ _ _ => (Status.MAP_OTHER 1, ())
  mapGet := fun _ _ => (Status.MAP_OTHER 1, none, ())
  mapRemove := fun _ _ => (Status.MAP_OTHER 1, none, ())
  mapContains := fun _ _ => (false, ())
  mapSize := fun _ => (none, ())
  mapPrint := fun _ => ()

/-- An implementation whose `mapSize` stores the fixed value `n`, whatever the
map holds; otherwise as `refImpl`. -/
def wildSizeImpl (n : Int) : MapImpl (AList (fun _ : Int => Int)) :=
  { refImpl with mapSize := fun m => (some n, m) }

/-- An implementation that reports every key as present. -/
def fullImpl : MapImpl Unit :=
  { nullImpl with mapCreate := some (), mapContains := fun _ _ => (true, ()) }

/-! ## Vocabulary of the statements -/

/-- The event is a call of `mapPut`. -/
def isPut : Event → Bool
  | .mapPut _ _ _ => true
  | _ => false

/-- On a just-cleared map the event contradicts emptiness: `mapContains`
returned true, or `mapRemove` returned a status other than `MAP_EMPTY`. -/
def emptyViolation : Event → Bool
  | .mapContains _ res => res
  | .mapRemove _ st _ => st != Status.MAP_EMPTY
  | _ => false

/-- An access to `keys` or `values` stays inside the seven cells of the
array. -/
def accessInBounds : Event → Prop
  | .readKeys i => i < 7
  | .readValues i => i < 7
  | .writeValues i => i < 7
  | _ => True

/-- The property holds of every event of the trace. -/
def traceAll (Q : Event → Prop) (fr : Frame σ) : Prop := ∀ e ∈ fr.trace, Q e

/-- A property of events that every call of a map operation from within
`testKeyAccessPolicy` has, whatever the arguments and results. -/
structure HoldsOfMapCalls (Q : Event → Prop) : Prop where
  clear : Q .mapClear
  put : ∀ k v st, Q (.mapPut k v st)
  get : ∀ k st w, Q (.mapGet k st w)
  remove : ∀ k st w, Q (.mapRemove k st w)
  contains : ∀ k b, Q (.mapContains k b)
  size : ∀ w, Q (.mapSize w)
  print : Q .mapPrint

/-- The accesses to `keys` and `values` with an index below `n` have the
property. -/
def HoldsOfAccessesBelow (n : Nat) (Q : Event → Prop) : Prop :=
  ∀ i, i < n → Q (.readKeys i) ∧ Q (.readValues i) ∧ Q (.writeValues i)

/-- The integers `0, 1, ..., n - 1` in increasing order. -/
def sequential (n : Nat) : List Int := (List.range n).map Int.ofNat

/-- Modelled from the spec: the contract of the map (sections 4.1 and 8), for
an implementation whose code is not among the sources.  The map behaves as a
finite function from keys to values: `content s` is that function in state
`s` and `dom s` its finite set of keys. -/
structure MeetsContract (M : MapImpl σ) (content : σ → Int → Option Int)
    (dom : σ → Finset Int) : Prop where
  dom_iff : ∀ s k, k ∈ dom s ↔ content s k ≠ none
  clear : ∀ s k, content (M.mapClear s) k = none
  put_status : ∀ s k v, (M.mapPut s k v).1 = Status.MAP_OK
  put_content : ∀ s k v k',
    content (M.mapPut s k v).2 k' = if k' = k then some v else content s k'
  get_present : ∀ s k v, content s k = some v →
    (M.mapGet s k).1 = Status.MAP_OK ∧ (M.mapGet s k).2.1 = some v ∧
      content (M.mapGet s k).2.2 = content s
  remove_present : ∀ s k v, content s k = some v →
    (M.mapRemove s k).1 = Status.MAP_OK ∧ (M.mapRemove s k).2.1 = some v ∧
      ∀ k', content (M.mapRemove s k).2.2 k' = if k' = k then none else content s k'
  remove_absent : ∀ s k, content s k = none →
    (M.mapRemove s k).1 = Status.MAP_EMPTY ∧ content (M.mapRemove s k).2.2 = content s
  contains : ∀ s k,
    (M.mapContains s k).1 = (content s k).isSome ∧ content (M.mapContains s k).2 = content s
  size : ∀ s, (M.mapSize s).1 = some ((dom s).card : Int) ∧ content (M.mapSize s).2 = content s
  print : ∀ s, content (M.mapPrint s) = content s

/-- The keys of the `mapContains` calls of a trace, in order. -/
def containsKeys (tr : List Event) : List Int :=
  tr.filterMap (fun e => match e with
    | .mapContains k _ => some k
    | _ => none)

/-- Results of `rand()` that make the first swap exchange cells 1 and 0 and
every later swap exchange cell 0 with itself. -/
def randOnce (k : Nat) : Int := if k = 0 then 1 else 0

/-- What the map holds after the first `j` insertions of lines 67-72. -/
def contentAfterPuts : Nat → Int → Option Int
  | 0, _ => none
  | j + 1, k => if k = keys.getD j 0 then some (values.getD j 0) else contentAfterPuts j k

/-- What the map holds after the replacing put of line 110. -/
def contentReplaced (k : Int) : Option Int :=
  if k = 1 then some 100 else contentAfterPuts 7 k

/-- What the map holds after the first `j` removals of lines 121-132. -/
def contentAfterRemovals (j : Nat) (k : Int) : Option Int :=
  if k ∈ keys.take j then none else contentReplaced k

/-- The map of the frame holds `c` and the array `values` is `vals`. -/
def Holds (content : σ → Int → Option Int) (c : Int → Option Int) (vals : List Int)
    (fr : Frame σ) : Prop :=
  (∀ k, content fr.map k = c k) ∧ fr.values = vals

/-- The key and the value stored through the out-parameter (if any) of every
`mapRemove` call of a trace, in order. -/
def removeOuts (tr : List Event) : List (Int × Option Int) :=
  tr.filterMap (fun e => match e with
    | .mapRemove k _ w => some (k, w)
    | _ => none)

/-- What the seven `mapRemove` calls of the removal phase store when every one
of them stores the value last put under its key, except that the first call
stores `w`. -/
def removalOuts (w : Option Int) : List (Int × Option Int) :=
  [(1, w), (4, some 1), (7, some 2), (2, some 3), (8, some 4), (5, some 5), (19, some 6)]

/-! # Theorems -/

/-! ## Loop and sequencing lemmas -/

theorem forRange_inv {S : Type} (P : Nat → S → Prop) (body : Nat → S → Bool × S) :
    ∀ (n i : Nat) (s : S),
      (∀ j s, i ≤ j → j < i + n → P j s → (body j s).1 = true → P (j + 1) (body j s).2) →
      P i s → (forRange body i n s).1 = true → P (i + n) (forRange body i n s).2 := by
  intro n
  induction n with
  | zero => intro i s _ hs _; simpa [forRange] using hs
  | succ n ih =>
    intro i s hstep hs hres
    unfold forRange at hres ⊢
    rcases hb : body i s with ⟨b, s'⟩
    rw [hb] at hres
    cases b with
    | false => simp at hres
    | true =>
      simp only at hres ⊢
      have h1 : P (i + 1) s' := by
        have := hstep i s (le_refl _) (by omega) hs (by rw [hb])
        rwa [hb] at this
      have := ih (i + 1) s' (fun j t hj hj' => hstep j t (by omega) (by omega)) h1 hres
      rwa [show i + 1 + n = i + (n + 1) by omega] at this

theorem forRange_preserves {S : Type} (P : S → Prop) (body : Nat → S → Bool × S) :
    ∀ (n i : Nat) (s : S),
      (∀ j s, i ≤ j → j < i + n → P s → P (body j s).2) →
      P s → P (forRange body i n s).2 := by
  intro n
  induction n with
  | zero => intro i s _ hs; simpa [forRange] using hs
  | succ n ih =>
    intro i s hstep hs
    unfold forRange
    have h0 := hstep i s (le_refl _) (by omega) hs
    rcases hb : body i s with ⟨b, s'⟩
    rw [hb] at h0
    cases b with
    | false => simpa using h0
    | true =>
      simp only
      exact ih (i + 1) s' (fun j t hj hj' => hstep j t (by omega) (by omega)) h0

theorem forRange_all {S : Type} (P : Nat → S → Prop) (body : Nat → S → Bool × S) :
    ∀ (n i : Nat) (s : S),
      (∀ j s, i ≤ j → j < i + n → P j s → (body j s).1 = true ∧ P (j + 1) (body j s).2) →
      P i s → (forRange body i n s).1 = true ∧ P (i + n) (forRange body i n s).2 := by
  intro n
  induction n with
  | zero => intro i s _ hs; simpa [forRange] using hs
  | succ n ih =>
    intro i s hstep hs
    unfold forRange
    have h0 := hstep i s (le_refl _) (by omega) hs
    rcases hb : body i s with ⟨b, s'⟩
    rw [hb] at h0
    obtain ⟨hb1, hP⟩ := h0
    simp only at hb1
    subst hb1
    simp only
    have := ih (i + 1) s' (fun j t hj hj' => hstep j t (by omega) (by omega)) hP
    rwa [show i + 1 + n = i + (n + 1) by omega] at this

theorem andThen_true {S : Type} (r : Bool × S) (f : S → Bool × S) :
    (andThen r f).1 = true ↔ r.1 = true ∧ (f r.2).1 = true := by
  unfold andThen
  cases h : r.1 <;> simp

theorem andThen_of_true {S : Type} (r : Bool × S) (f : S → Bool × S) (h : r.1 = true) :
    andThen r f = f r.2 := by
  simp [andThen, h]

/-! ## The calls of the driver, one by one -/

@[simp] theorem emit_trace (fr : Frame σ) (e : Event) : (fr.emit e).trace = fr.trace ++ [e] := rfl
@[simp] theorem emit_map (fr : Frame σ) (e : Event) : (fr.emit e).map = fr.map := rfl
@[simp] theorem emit_ret (fr : Frame σ) (e : Event) : (fr.emit e).ret = fr.ret := rfl
@[simp] theorem emit_size (fr : Frame σ) (e : Event) : (fr.emit e).size = fr.size := rfl
@[simp] theorem emit_values (fr : Frame σ) (e : Event) : (fr.emit e).values = fr.values := rfl

theorem traceAll_step {Q : Event → Prop} (fr fr' : Frame σ) (e : Event)
    (h : traceAll Q fr) (he : Q e) (ht : fr'.trace = fr.trace ++ [e]) : traceAll Q fr' := by
  intro x hx
  rw [ht] at hx
  simp only [List.mem_append, List.mem_singleton] at hx
  rcases hx with hx | hx
  · exact h x hx
  · exact hx ▸ he

theorem traceAll_emit {Q : Event → Prop} (fr : Frame σ) (e : Event)
    (h : traceAll Q fr) (he : Q e) : traceAll Q (fr.emit e) :=
  traceAll_step fr _ e h he rfl

theorem callContains_traceAll {Q : Event → Prop} (hQ : HoldsOfMapCalls Q) (M : MapImpl σ)
    (i : Nat) (fr : Frame σ) (hk : Q (.readKeys i)) (h : traceAll Q fr) :
    traceAll Q (callContains M i fr).2 :=
  traceAll_step _ _ _ (traceAll_emit fr _ h hk) (hQ.contains _ _) rfl

theorem callRemove_traceAll {Q : Event → Prop} (hQ : HoldsOfMapCalls Q) (M : MapImpl σ)
    (i : Nat) (fr : Frame σ) (hk : Q (.readKeys i)) (h : traceAll Q fr) :
    traceAll Q (callRemove M i fr).2 :=
  traceAll_step _ _ _ (traceAll_emit fr _ h hk) (hQ.remove _ _ _) rfl

theorem callGet_traceAll {Q : Event → Prop} (hQ : HoldsOfMapCalls Q) (M : MapImpl σ)
    (i : Nat) (fr : Frame σ) (hk : Q (.readKeys i)) (h : traceAll Q fr) :
    traceAll Q (callGet M i fr).2 :=
  traceAll_step _ _ _ (traceAll_emit fr _ h hk) (hQ.get _ _ _) rfl

theorem callPut_traceAll {Q : Event → Prop} (hQ : HoldsOfMapCalls Q) (M : MapImpl σ)
    (i : Nat) (fr : Frame σ) (hk : Q (.readKeys i)) (hv : Q (.readValues i))
    (h : traceAll Q fr) : traceAll Q (callPut M i fr).2 :=
  traceAll_step _ _ _ (traceAll_emit _ _ (traceAll_emit fr _ h hk) hv) (hQ.put _ _ _) rfl

theorem callSize_traceAll {Q : Event → Prop} (hQ : HoldsOfMapCalls Q) (M : MapImpl σ)
    (fr : Frame σ) (h : traceAll Q fr) : traceAll Q (callSize M fr) :=
  traceAll_step fr _ _ h (hQ.size _) rfl

theorem callPrint_traceAll {Q : Event → Prop} (hQ : HoldsOfMapCalls Q) (M : MapImpl σ)
    (fr : Frame σ) (h : traceAll Q fr) : traceAll Q (callPrint M fr) :=
  traceAll_step fr _ _ h hQ.print rfl

theorem retDiffers_traceAll {Q : Event → Prop} (i : Nat) (fr : Frame σ)
    (hv : Q (.readValues i)) (h : traceAll Q fr) : traceAll Q (retDiffers i fr).2 :=
  traceAll_emit fr _ h hv

/-! ## Properties of every event of a phase -/

theorem emptyMapBody_traceAll {Q : Event → Prop} (hQ : HoldsOfMapCalls Q) (M : MapImpl σ)
    (i : Nat) (fr : Frame σ) (hk : Q (.readKeys i)) (h : traceAll Q fr) :
    traceAll Q (emptyMapBody M i fr).2 := by
  have h1 := callContains_traceAll hQ M i fr hk h
  have h2 := callRemove_traceAll hQ M i _ hk h1
  unfold emptyMapBody
  simp only
  split_ifs <;> assumption

theorem putBody_traceAll {Q : Event → Prop} (hQ : HoldsOfMapCalls Q) (M : MapImpl σ)
    (i : Nat) (fr : Frame σ) (hk : Q (.readKeys i)) (hv : Q (.readValues i))
    (h : traceAll Q fr) : traceAll Q (putBody M i fr).2 := by
  have h1 := callPut_traceAll hQ M i fr hk hv h
  unfold putBody
  simp only
  split_ifs <;> assumption

theorem lookupBody_traceAll {Q : Event → Prop} (hQ : HoldsOfMapCalls Q) (M : MapImpl σ)
    (i : Nat) (fr : Frame σ) (hk : Q (.readKeys i)) (hv : Q (.readValues i))
    (h : traceAll Q fr) : traceAll Q (lookupBody M i fr).2 := by
  have h1 := callContains_traceAll hQ M i fr hk h
  have h2 := callGet_traceAll hQ M i _ hk h1
  have h3 := retDiffers_traceAll i _ hv h2
  unfold lookupBody
  simp only
  split_ifs <;> assumption

theorem removalBody_traceAll {Q : Event → Prop} (hQ : HoldsOfMapCalls Q) (M : MapImpl σ)
    (i : Nat) (fr : Frame σ) (hk : Q (.readKeys i)) (hv : Q (.readValues i))
    (h : traceAll Q fr) : traceAll Q (removalBody M i fr).2 := by
  have h1 := callRemove_traceAll hQ M i fr hk h
  have h2 := retDiffers_traceAll i _ hv h1
  have h3 := callContains_traceAll hQ M i _ hk h2
  unfold removalBody
  simp only
  split_ifs <;> assumption

theorem emptyMapPhase_traceAll {Q : Event → Prop} (hQ : HoldsOfMapCalls Q)
    (hA : HoldsOfAccessesBelow 7 Q) (M : MapImpl σ) (fr : Frame σ) (h : traceAll Q fr) :
    traceAll Q (emptyMapPhase M fr).2 := by
  unfold emptyMapPhase
  apply forRange_preserves (traceAll Q)
  · intro j s _ hj hs
    have hj7 : j < 7 := by simpa [keys] using hj
    exact emptyMapBody_traceAll hQ M j s (hA j hj7).1 hs
  · exact traceAll_step fr _ _ h hQ.clear rfl

theorem putPhase_traceAll {Q : Event → Prop} (hQ : HoldsOfMapCalls Q)
    (hA : HoldsOfAccessesBelow 7 Q) (M : MapImpl σ) (fr : Frame σ) (h : traceAll Q fr) :
    traceAll Q (putPhase M fr).2 := by
  unfold putPhase
  apply forRange_preserves (traceAll Q)
  · intro j s _ hj hs
    have hj7 : j < 7 := by simpa [keys] using hj
    exact putBody_traceAll hQ M j s (hA j hj7).1 (hA j hj7).2.1 hs
  · exact h

theorem sizePhase_traceAll {Q : Event → Prop} (hQ : HoldsOfMapCalls Q)
    (M : MapImpl σ) (fr : Frame σ) (h : traceAll Q fr) :
    traceAll Q (sizePhase M fr).2 := by
  have h1 := callSize_traceAll hQ M fr h
  unfold sizePhase
  simp only
  split_ifs <;> assumption

theorem lookupPhase_traceAll {Q : Event → Prop} (hQ : HoldsOfMapCalls Q)
    (M : MapImpl σ) (fr : Frame σ) (hA : HoldsOfAccessesBelow fr.size.toNat Q)
    (h : traceAll Q fr) : traceAll Q (lookupPhase M fr).2 := by
  unfold lookupPhase
  apply forRange_preserves (traceAll Q)
  · intro j s _ hj hs
    have hj7 : j < fr.size.toNat := by simpa using hj
    exact lookupBody_traceAll hQ M j s (hA j hj7).1 (hA j hj7).2.1 hs
  · exact h

theorem replacePut_traceAll {Q : Event → Prop} (hQ : HoldsOfMapCalls Q)
    (hA : HoldsOfAccessesBelow 7 Q) (M : MapImpl σ) (fr : Frame σ) (h : traceAll Q fr) :
    traceAll Q (replacePut M fr).2 := by
  unfold replacePut
  exact callPut_traceAll hQ M 0 _ (hA 0 (by omega)).1 (hA 0 (by omega)).2.1
    (traceAll_step fr _ _ h (hA 0 (by omega)).2.2 rfl)

theorem replaceCheck_traceAll {Q : Event → Prop} (hQ : HoldsOfMapCalls Q)
    (hA : HoldsOfAccessesBelow 7 Q) (M : MapImpl σ) (fr : Frame σ) (h : traceAll Q fr) :
    traceAll Q (replaceCheck M fr).2 := by
  have h1 := callGet_traceAll hQ M 0 fr (hA 0 (by omega)).1 h
  have h2 := retDiffers_traceAll 0 _ (hA 0 (by omega)).2.1 h1
  unfold replaceCheck
  simp only
  split_ifs <;> assumption

theorem removalPhase_traceAll {Q : Event → Prop} (hQ : HoldsOfMapCalls Q)
    (hA : HoldsOfAccessesBelow 7 Q) (M : MapImpl σ) (fr : Frame σ) (h : traceAll Q fr) :
    traceAll Q (removalPhase M fr).2 := by
  unfold removalPhase
  apply forRange_preserves (traceAll Q)
  · intro j s _ hj hs
    have hj7 : j < 7 := by simpa [keys] using hj
    exact removalBody_traceAll hQ M j s (hA j hj7).1 (hA j hj7).2.1 hs
  · exact callPrint_traceAll hQ M fr h

theorem finalPhase_traceAll {Q : Event → Prop} (hQ : HoldsOfMapCalls Q)
    (M : MapImpl σ) (fr : Frame σ) (h : traceAll Q fr) :
    traceAll Q (finalPhase M fr).2 := by
  have h1 := callSize_traceAll hQ M fr h
  have h2 := callPrint_traceAll hQ M _ h1
  unfold finalPhase
  simp only
  split_ifs <;> assumption

theorem andThen_traceAll {Q : Event → Prop} (r : Bool × Frame σ)
    (f : Frame σ → Bool × Frame σ) (hr : traceAll Q r.2)
    (hf : r.1 = true → traceAll Q r.2 → traceAll Q (f r.2).2) :
    traceAll Q (andThen r f).2 := by
  unfold andThen
  split_ifs with h
  · exact hf h hr
  · exact hr

/-! ## The variable `size` -/

theorem sizePhase_true (M : MapImpl σ) (fr : Frame σ) (h : (sizePhase M fr).1 = true) :
    toSizeT (sizePhase M fr).2.size = 7 := by
  unfold sizePhase at h ⊢
  simp only at h ⊢
  split_ifs at h ⊢ with hc
  · simpa [keys, toSizeT] using hc

/-- A C `int` whose conversion to `size_t` is 7 is 7. -/
theorem eq_seven_of_toSizeT {x : Int} (hx : isCInt x) (h : toSizeT x = 7) : x = 7 := by
  unfold toSizeT at h
  unfold isCInt at hx
  omega

/-! ## Properties of every event of a run of `testKeyAccessPolicy` -/

theorem uptoSizeCheck_true (M : MapImpl σ) (fr : Frame σ)
    (ht : (uptoSizeCheck M fr).1 = true) : toSizeT (uptoSizeCheck M fr).2.size = 7 := by
  unfold uptoSizeCheck at ht ⊢
  rw [andThen_true] at ht
  rw [andThen_of_true _ _ ht.1]
  exact sizePhase_true M _ ht.2

theorem testKeyAccessPolicyBody_traceAll {Q : Event → Prop} (hQ : HoldsOfMapCalls Q)
    (hA : HoldsOfAccessesBelow 7 Q) (M : MapImpl σ) (fr : Frame σ) (h0 : traceAll Q fr)
    (hL : toSizeT (uptoSizeCheck M fr).2.size = 7 →
      HoldsOfAccessesBelow (uptoSizeCheck M fr).2.size.toNat Q) :
    traceAll Q (testKeyAccessPolicyBody M fr).2 := by
  have h1 := emptyMapPhase_traceAll hQ hA M _ h0
  unfold testKeyAccessPolicyBody uptoReplacingPut
  refine andThen_traceAll _ _ ?_ (fun _ h => finalPhase_traceAll hQ M _ h)
  refine andThen_traceAll _ _ ?_ (fun _ h => removalPhase_traceAll hQ hA M _ h)
  refine andThen_traceAll _ _ ?_ (fun _ h => replaceCheck_traceAll hQ hA M _ h)
  refine andThen_traceAll _ _ ?_ (fun _ h => replacePut_traceAll hQ hA M _ h)
  refine andThen_traceAll _ _ ?_ ?_
  · unfold uptoSizeCheck
    refine andThen_traceAll _ _ ?_ (fun _ h => sizePhase_traceAll hQ M _ h)
    exact andThen_traceAll _ _ h1 (fun _ h => putPhase_traceAll hQ hA M _ h)
  · intro ht h
    exact lookupPhase_traceAll hQ M _ (hL (uptoSizeCheck_true M fr ht)) h

theorem initFrame_traceAll (Q : Event → Prop) (s : σ) (ret0 size0 : Int) :
    traceAll Q (initFrame s ret0 size0) := by
  intro e he
  simp [initFrame] at he

/-! ## The array of `createSequentialShuffledArray` -/

theorem sequential_length (n : Nat) : (sequential n).length = n := by
  simp [sequential]

theorem sequential_nodup (n : Nat) : (sequential n).Nodup := by
  unfold sequential
  exact (List.nodup_range n).map (fun a b h => by simpa using h)

theorem forEach_inv {S : Type} (P : Nat → S → Prop) (body : Nat → S → S) :
    ∀ (n i : Nat) (s : S),
      (∀ j s, i ≤ j → j < i + n → P j s → P (j + 1) (body j s)) →
      P i s → P (i + n) (forEach body i n s) := by
  intro n
  induction n with
  | zero => intro i s _ hs; simpa [forEach] using hs
  | succ n ih =>
    intro i s hstep hs
    unfold forEach
    have := ih (i + 1) (body i s) (fun j t hj hj' => hstep j t (by omega) (by omega))
      (hstep i s (le_refl _) (by omega) hs)
    rwa [show i + 1 + n = i + (n + 1) by omega] at this

theorem fill_eq_sequential (n : Nat) :
    forEach fillBody 0 n (List.replicate n (0 : Int)) = sequential n := by
  have h := forEach_inv
    (fun j (arr : List Int) => arr.length = n ∧ ∀ k, k < j → arr[k]? = some (k : Int))
    fillBody n 0 (List.replicate n 0)
    (by
      intro j arr _ hj hP
      refine ⟨?_, ?_⟩
      · simp [fillBody, hP.1]
      · intro k hk
        simp only [fillBody, List.getElem?_set]
        split_ifs with h1 h2
        · rw [h1]
        · omega
        · exact hP.2 k (by omega))
    ⟨by simp, by intro k hk; omega⟩
  obtain ⟨h2, h3⟩ := h
  apply List.ext_getElem?
  intro k
  by_cases hk : k < n
  · rw [h3 k (by omega)]
    simp [sequential, List.getElem?_range hk, hk]
  · rw [List.getElem?_eq_none (by omega),
      List.getElem?_eq_none (by simp [sequential_length]; omega)]

theorem swap_perm (l : List Int) (i j : Nat) (hi : i < l.length) (hj : j < l.length) :
    ((l.set i (l.getD j 0)).set j (l.getD i 0)).Perm l := by
  rw [List.perm_iff_count]
  intro b
  rw [List.getD_eq_getElem _ _ hi, List.getD_eq_getElem _ _ hj]
  rw [List.count_set _ _ _ _ (by simpa using hj), List.count_set _ _ _ _ hi]
  have hx : (if l[i] == b then 1 else 0) ≤ l.count b := by
    split_ifs with h
    · have : l[i] = b := by simpa using h
      exact List.count_pos_iff.mpr (this ▸ List.getElem_mem hi)
    · omega
  by_cases hij : i = j
  · subst hij
    simp only [List.getElem_set_self]
    omega
  · rw [List.getElem_set_ne hij]
    omega

theorem tmod_index {r size : Int} {n : Nat} (hr : 0 ≤ r) (hn : size = (n : Int)) (hpos : 0 < n) :
    0 ≤ r.tmod size ∧ r.tmod size < (n : Int) := by
  have hs : (0 : Int) < size := by omega
  rw [Int.tmod_eq_emod hr (le_of_lt hs)]
  refine ⟨Int.emod_nonneg _ (ne_of_gt hs), ?_⟩
  have := Int.emod_lt_of_pos r hs
  omega

theorem shuffle_perm (rand : Nat → Int) (hr : ∀ k, 0 ≤ rand k) (n m : Nat) (base : List Int)
    (hlen : base.length = n) (hm : n = 0 → m = 0) :
    (forRange (shuffleBody rand (n : Int)) 0 m base).1 = true ∧
      (forRange (shuffleBody rand (n : Int)) 0 m base).2.Perm base := by
  by_cases hn : n = 0
  · rw [hm hn]
    simp [forRange]
  · have h := forRange_all (fun _ (arr : List Int) => arr.Perm base)
      (shuffleBody rand (n : Int)) m 0 base
      (by
        intro j arr _ _ hP
        have hl : arr.length = n := by rw [hP.length_eq, hlen]
        have h1 := tmod_index (hr (2 * j)) rfl (Nat.pos_of_ne_zero hn)
        have h2 := tmod_index (hr (2 * j + 1)) rfl (Nat.pos_of_ne_zero hn)
        have hc : 0 ≤ (rand (2 * j)).tmod n ∧ (rand (2 * j)).tmod n < arr.length ∧
            0 ≤ (rand (2 * j + 1)).tmod n ∧ (rand (2 * j + 1)).tmod n < arr.length := by
          rw [hl]; exact ⟨h1.1, h1.2, h2.1, h2.2⟩
        unfold shuffleBody
        simp only [if_pos hc, true_and]
        refine (swap_perm arr _ _ ?_ ?_).trans hP
        · omega
        · omega)
      (List.Perm.refl _)
    simpa using h


theorem createSequentialShuffledArray_perm (rand : Nat → Int) (hr : ∀ k, 0 ≤ rand k)
    (size : Int) (hsize : 0 ≤ size) :
    ∃ arr, createSequentialShuffledArray rand size = some arr ∧
      arr.Perm (sequential size.toNat) := by
  obtain ⟨n, rfl⟩ := Int.eq_ofNat_of_zero_le hsize
  have h := shuffle_perm rand hr n ((n : Int).tdiv 2).toNat (sequential n) (sequential_length n)
    (by intro h0; subst h0; rfl)
  refine ⟨_, ?_, h.2⟩
  unfold createSequentialShuffledArray
  simp only [Int.toNat_ofNat, fill_eq_sequential, h.1, if_true]

/-! ## The reference implementation meets the contract -/

theorem refImpl_meetsContract :
    MeetsContract refImpl (fun m => m.lookup) (fun m => m.keys.toFinset) where
  dom_iff := by
    intro s k
    rw [List.mem_toFinset, ← AList.mem_keys, ← AList.lookup_isSome, Option.isSome_iff_ne_none]
  clear := by intro s k; simp [refImpl]
  put_status := by intro s k v; rfl
  put_content := by
    intro s k v k'
    by_cases h : k' = k
    · subst h; simp [refImpl]
    · simp [refImpl, h, AList.lookup_insert_ne h]
  get_present := by
    intro s k v h
    simp [refImpl, h]
  remove_present := by
    intro s k v h
    refine ⟨by simp [refImpl, h], by simp [refImpl, h], ?_⟩
    intro k'
    by_cases hk : k' = k
    · subst hk; simp [refImpl, h]
    · simp [refImpl, h, hk, AList.lookup_erase_ne hk]
  remove_absent := by
    intro s k h
    simp [refImpl, h]
  contains := by intro s k; simp [refImpl]
  size := by
    intro s
    simp [refImpl, List.toFinset_card_of_nodup s.keys_nodup]
  print := by intro s; rfl

/-! ## Accesses to `keys` and `values` (C9) -/

theorem testKeyAccessPolicy_trace_some (M : MapImpl σ) (s : σ) (ret0 size0 : Int) :
    (testKeyAccessPolicy M (some s) ret0 size0).trace =
      (testKeyAccessPolicyBody M (initFrame s ret0 size0)).2.trace := rfl

theorem testKeyAccessPolicy_passed_some (M : MapImpl σ) (s : σ) (ret0 size0 : Int) :
    (testKeyAccessPolicy M (some s) ret0 size0).passed =
      (testKeyAccessPolicyBody M (initFrame s ret0 size0)).1 := rfl

theorem andThen_false_fst {S : Type} (r : Bool × S) (f : S → Bool × S) (h : r.1 = false) :
    (andThen r f).1 = false := by
  simp [andThen, h]

theorem testKeyAccessPolicyBody_false_of_sizeCheck (M : MapImpl σ) (fr : Frame σ)
    (h : (uptoSizeCheck M fr).1 = false) : (testKeyAccessPolicyBody M fr).1 = false := by
  unfold testKeyAccessPolicyBody uptoReplacingPut
  exact andThen_false_fst _ _ (andThen_false_fst _ _ (andThen_false_fst _ _
    (andThen_false_fst _ _ (andThen_false_fst _ _ h))))

/-- C9: whatever the implementation does, and whatever C `int` the variable
`size` holds after the `mapSize` call of line 75 (stored by `mapSize`, negative
or huge, or left over when `mapSize` stores nothing), every access `keys[i]`,
`values[i]` of a run of `testKeyAccessPolicy` has `i < 7`: the loop of lines
86-98 is entered only with `size = 7`, and when the size check is not passed
the function returns false.  For a `NULL` map there is no access at all. -/
theorem C9_array_accesses_in_bounds (M : MapImpl σ) (s : σ) (ret0 size0 : Int)
    (hsz : isCInt (uptoSizeCheck M (initFrame s ret0 size0)).2.size) :
    (∀ e ∈ (testKeyAccessPolicy M (some s) ret0 size0).trace, accessInBounds e) ∧
    ((uptoSizeCheck M (initFrame s ret0 size0)).1 = true →
      (uptoSizeCheck M (initFrame s ret0 size0)).2.size = 7) ∧
    ((uptoSizeCheck M (initFrame s ret0 size0)).1 = false →
      (testKeyAccessPolicy M (some s) ret0 size0).passed = false) ∧
    (testKeyAccessPolicy M none ret0 size0).trace = [] := by
  refine ⟨?_, ?_, ?_, rfl⟩
  · rw [testKeyAccessPolicy_trace_some]
    have hQ : HoldsOfMapCalls accessInBounds := by
      constructor <;> intros <;> trivial
    have hA : ∀ n, n ≤ 7 → HoldsOfAccessesBelow n accessInBounds := by
      intro n hn i hi
      have : i < 7 := by omega
      exact ⟨this, this, this⟩
    refine testKeyAccessPolicyBody_traceAll hQ (hA 7 (le_refl _)) M _
      (initFrame_traceAll _ s ret0 size0) ?_
    intro ht
    rw [eq_seven_of_toSizeT hsz ht]
    exact hA _ (by decide)
  · intro ht
    exact eq_seven_of_toSizeT hsz (uptoSizeCheck_true M _ ht)
  · intro hf
    rw [testKeyAccessPolicy_passed_some]
    exact testKeyAccessPolicyBody_false_of_sizeCheck M _ hf

/-- C9 at an implementation whose `mapSize` stores -3. -/
theorem C9_array_accesses_in_bounds_witness :
    isCInt (uptoSizeCheck (wildSizeImpl (-3)) (initFrame ∅ 0 5)).2.size ∧
    (∀ e ∈ (testKeyAccessPolicy (wildSizeImpl (-3)) (some ∅) 0 5).trace, accessInBounds e) ∧
    ((uptoSizeCheck (wildSizeImpl (-3)) (initFrame ∅ 0 5)).1 = true →
      (uptoSizeCheck (wildSizeImpl (-3)) (initFrame ∅ 0 5)).2.size = 7) ∧
    ((uptoSizeCheck (wildSizeImpl (-3)) (initFrame ∅ 0 5)).1 = false →
      (testKeyAccessPolicy (wildSizeImpl (-3)) (some ∅) 0 5).passed = false) ∧
    (testKeyAccessPolicy (wildSizeImpl (-3)) none 0 5).trace = [] :=
  ⟨by decide, C9_array_accesses_in_bounds (wildSizeImpl (-3)) ∅ 0 5 (by decide)⟩

/-! ## `main` (C10) -/

theorem testKeyAccessPolicy_no_call (M : MapImpl σ) (map : Option σ) (ret0 size0 : Int) :
    ∀ e ∈ (testKeyAccessPolicy M map ret0 size0).trace, e ≠ Event.call Fn.testStress := by
  cases map with
  | none => intro e he; simp [testKeyAccessPolicy] at he
  | some s =>
    rw [testKeyAccessPolicy_trace_some]
    have hQ : HoldsOfMapCalls (fun e => e ≠ Event.call Fn.testStress) := by
      constructor <;> intros <;> simp
    have hA : ∀ n, HoldsOfAccessesBelow n (fun e => e ≠ Event.call Fn.testStress) := by
      intro n i _
      simp
    exact testKeyAccessPolicyBody_traceAll hQ (hA 7) M _ (initFrame_traceAll _ s ret0 size0)
      (fun _ => hA _)

theorem testStress_isSome (M : MapImpl σ) (rand : Nat → Int) (hr : ∀ k, 0 ≤ rand k)
    (map : Option σ) : ∃ r, testStress M rand map = some r := by
  cases map with
  | none => exact ⟨_, rfl⟩
  | some s =>
    obtain ⟨arr, harr, _⟩ := createSequentialShuffledArray_perm rand hr STRESS_TEST_SIZE
      (by decide)
    simp only [testStress, testStressOfSize, harr]
    exact ⟨_, rfl⟩

/-- C10: `main` calls `testStress` exactly when `testKeyAccessPolicy` returned
true; when `mapCreate` returns `NULL`, `testKeyAccessPolicy` returns false
without any map operation, `testStress` is not called and the only map
operation after `mapCreate` is `mapDestroy`. -/
theorem C10_main_runs_testStress_iff_passed (M : MapImpl σ) (rand : Nat → Int)
    (ret0 size0 : Int) (hr : ∀ k, 0 ≤ rand k) :
    ∃ tr, main M rand ret0 size0 = some tr ∧
      (Event.call Fn.testStress ∈ tr ↔
        (testKeyAccessPolicy M M.mapCreate ret0 size0).passed = true) ∧
      (M.mapCreate = none →
        (testKeyAccessPolicy M M.mapCreate ret0 size0).passed = false ∧
        (testKeyAccessPolicy M M.mapCreate ret0 size0).trace = [] ∧
        tr = [Event.mapCreate true, Event.call Fn.testKeyAccessPolicy, Event.mapDestroy]) := by
  have hno : Event.call Fn.testStress ∉ (testKeyAccessPolicy M M.mapCreate ret0 size0).trace :=
    fun h => testKeyAccessPolicy_no_call M M.mapCreate ret0 size0 _ h rfl
  cases hp : (testKeyAccessPolicy M M.mapCreate ret0 size0).passed with
  | true =>
    obtain ⟨r, hr'⟩ := testStress_isSome M rand hr
      (testKeyAccessPolicy M M.mapCreate ret0 size0).map
    have hm : main M rand ret0 size0 = some
        ([Event.mapCreate M.mapCreate.isNone, Event.call Fn.testKeyAccessPolicy] ++
          (testKeyAccessPolicy M M.mapCreate ret0 size0).trace ++ [Event.call Fn.testStress] ++
          r.1 ++ [Event.mapDestroy]) := by
      simp only [main, hp, if_true, hr']
    refine ⟨_, hm, by simp, ?_⟩
    intro hnull
    rw [hnull] at hp
    simp [testKeyAccessPolicy] at hp
  | false =>
    have hm : main M rand ret0 size0 = some
        ([Event.mapCreate M.mapCreate.isNone, Event.call Fn.testKeyAccessPolicy] ++
          (testKeyAccessPolicy M M.mapCreate ret0 size0).trace ++ [Event.mapDestroy]) := by
      simp only [main, hp]
      rfl
    refine ⟨_, hm, by simp [hno], ?_⟩
    intro hnull
    rw [hnull]
    simp [testKeyAccessPolicy]

/-- C10 at an implementation whose `mapCreate` returns `NULL`. -/
theorem C10_main_runs_testStress_iff_passed_witness :
    (∀ k, 0 ≤ (fun _ : Nat => (0 : Int)) k) ∧
    ∃ tr, main nullImpl (fun _ => 0) 0 0 = some tr ∧
      (Event.call Fn.testStress ∈ tr ↔
        (testKeyAccessPolicy nullImpl nullImpl.mapCreate 0 0).passed = true) ∧
      (nullImpl.mapCreate = none →
        (testKeyAccessPolicy nullImpl nullImpl.mapCreate 0 0).passed = false ∧
        (testKeyAccessPolicy nullImpl nullImpl.mapCreate 0 0).trace = [] ∧
        tr = [Event.mapCreate true, Event.call Fn.testKeyAccessPolicy, Event.mapDestroy]) :=
  ⟨fun _ => le_refl _, C10_main_runs_testStress_iff_passed nullImpl (fun _ => 0) 0 0
    (fun _ => le_refl _)⟩

/-! ## The checks on the just-cleared map (C5) -/

theorem emptyMapBody_no_put (M : MapImpl σ) (i : Nat) (fr : Frame σ)
    (h : traceAll (fun e => isPut e = false) fr) :
    traceAll (fun e => isPut e = false) (emptyMapBody M i fr).2 := by
  have h1 : traceAll (fun e => isPut e = false) (callContains M i fr).2 :=
    traceAll_step _ _ (.mapContains (keys.getD i 0) (callContains M i fr).1)
      (traceAll_emit fr (.readKeys i) h rfl) rfl rfl
  have h2 : traceAll (fun e => isPut e = false) (callRemove M i (callContains M i fr).2).2 :=
    traceAll_step _ _
      (.mapRemove (keys.getD i 0) (callRemove M i (callContains M i fr).2).1
        (M.mapRemove ((callContains M i fr).2.emit (.readKeys i)).map (keys.getD i 0)).2.1)
      (traceAll_emit _ (.readKeys i) h1 rfl) rfl rfl
  unfold emptyMapBody
  simp only
  split_ifs <;> assumption

theorem emptyMapBody_no_violation (M : MapImpl σ) (i : Nat) (fr : Frame σ)
    (h : traceAll (fun e => emptyViolation e = false) fr)
    (ht : (emptyMapBody M i fr).1 = true) :
    traceAll (fun e => emptyViolation e = false) (emptyMapBody M i fr).2 := by
  unfold emptyMapBody at ht ⊢
  simp only at ht ⊢
  split_ifs at ht ⊢ with hc hs
  have hc' : (callContains M i fr).1 = false := by simpa using hc
  have h1 : traceAll (fun e => emptyViolation e = false) (callContains M i fr).2 :=
    traceAll_step _ _ (.mapContains (keys.getD i 0) (callContains M i fr).1)
      (traceAll_emit fr (.readKeys i) h rfl) (by simp [emptyViolation, hc']) rfl
  exact traceAll_step _ _
    (.mapRemove (keys.getD i 0) (callRemove M i (callContains M i fr).2).1
      (M.mapRemove ((callContains M i fr).2.emit (.readKeys i)).map (keys.getD i 0)).2.1)
    (traceAll_emit _ (.readKeys i) h1 rfl)
    (by simp only [emptyViolation]; simpa using hs) rfl

theorem emptyMapPhase_no_put (M : MapImpl σ) (fr : Frame σ)
    (h : traceAll (fun e => isPut e = false) fr) :
    traceAll (fun e => isPut e = false) (emptyMapPhase M fr).2 := by
  unfold emptyMapPhase
  apply forRange_preserves (traceAll (fun e => isPut e = false))
  · intro j s _ _ hs
    exact emptyMapBody_no_put M j s hs
  · exact traceAll_step fr _ .mapClear h rfl rfl

theorem emptyMapPhase_no_violation (M : MapImpl σ) (fr : Frame σ)
    (h : traceAll (fun e => emptyViolation e = false) fr)
    (ht : (emptyMapPhase M fr).1 = true) :
    traceAll (fun e => emptyViolation e = false) (emptyMapPhase M fr).2 := by
  unfold emptyMapPhase at ht ⊢
  exact forRange_inv (fun _ t => traceAll (fun e => emptyViolation e = false) t)
    (emptyMapBody M) keys.length 0 _
    (fun j s _ _ hs hb => emptyMapBody_no_violation M j s hs hb)
    (traceAll_step fr _ .mapClear h rfl rfl) ht

theorem testKeyAccessPolicyBody_of_emptyMapPhase_false (M : MapImpl σ) (fr : Frame σ)
    (h : (emptyMapPhase M fr).1 = false) :
    testKeyAccessPolicyBody M fr = (false, (emptyMapPhase M fr).2) := by
  unfold testKeyAccessPolicyBody uptoReplacingPut uptoSizeCheck
  simp [andThen, h]

/-- C5: if, among the calls made on the just-cleared map (lines 31-64), a
`mapContains` returned true or a `mapRemove` returned a status other than
`MAP_EMPTY`, then `testKeyAccessPolicy` returns false, the run ends with
that phase, and no `mapPut` was called. -/
theorem C5_empty_map_violation_fails_before_put (M : MapImpl σ) (s : σ) (ret0 size0 : Int)
    (h : ∃ e ∈ (emptyMapPhase M (initFrame s ret0 size0)).2.trace, emptyViolation e = true) :
    (testKeyAccessPolicy M (some s) ret0 size0).passed = false ∧
    (testKeyAccessPolicy M (some s) ret0 size0).trace =
      (emptyMapPhase M (initFrame s ret0 size0)).2.trace ∧
    ∀ e ∈ (testKeyAccessPolicy M (some s) ret0 size0).trace, isPut e = false := by
  have h0 : ∀ Q : Event → Prop, traceAll Q (initFrame s ret0 size0) := by
    intro Q e he
    simp [initFrame] at he
  have hf : (emptyMapPhase M (initFrame s ret0 size0)).1 = false := by
    by_contra hne
    have ht : (emptyMapPhase M (initFrame s ret0 size0)).1 = true := by simpa using hne
    obtain ⟨e, he, hv⟩ := h
    have := emptyMapPhase_no_violation M _ (h0 _) ht e he
    simp [hv] at this
  have hb := testKeyAccessPolicyBody_of_emptyMapPhase_false M _ hf
  rw [testKeyAccessPolicy_passed_some, testKeyAccessPolicy_trace_some, hb]
  exact ⟨rfl, rfl, emptyMapPhase_no_put M _ (h0 _)⟩

/-- C5 at an implementation whose `mapContains` always returns true. -/
theorem C5_empty_map_violation_fails_before_put_witness :
    (∃ e ∈ (emptyMapPhase fullImpl (initFrame () 0 0)).2.trace, emptyViolation e = true) ∧
    (testKeyAccessPolicy fullImpl (some ()) 0 0).passed = false ∧
    (testKeyAccessPolicy fullImpl (some ()) 0 0).trace =
      (emptyMapPhase fullImpl (initFrame () 0 0)).2.trace ∧
    ∀ e ∈ (testKeyAccessPolicy fullImpl (some ()) 0 0).trace, isPut e = false :=
  ⟨⟨Event.mapContains 1 true, by decide, rfl⟩,
    C5_empty_map_violation_fails_before_put fullImpl () 0 0
      ⟨Event.mapContains 1 true, by decide, rfl⟩⟩

/-! ## `createSequentialShuffledArray` returns a permutation (C7) -/

theorem mem_sequential (n : Nat) (v : Int) : v ∈ sequential n ↔ 0 ≤ v ∧ v < n := by
  unfold sequential
  simp only [List.mem_map, List.mem_range]
  constructor
  · rintro ⟨a, ha, rfl⟩
    simp only [Int.ofNat_eq_coe]
    omega
  · rintro ⟨h0, h1⟩
    exact ⟨v.toNat, by omega, by simp only [Int.ofNat_eq_coe]; omega⟩

theorem sequential_succ (n : Nat) : sequential (n + 1) = sequential n ++ [(n : Int)] := by
  simp [sequential, List.range_succ]

/-- C7: for `size ≥ 0` and non-negative results of `rand()`,
`createSequentialShuffledArray(size)` returns an array of length `size` that is
a permutation of `0, ..., size - 1`: every integer of `[0, size)` occurs
exactly once, nothing else occurs, and the entries are pairwise distinct.
For `size ≤ 1` the shuffle loop does not run and the result does not depend
on `rand()` at all. -/
theorem C7_createSequentialShuffledArray_permutation (rand : Nat → Int) (size : Int)
    (hsize : 0 ≤ size) (hr : ∀ k, 0 ≤ rand k) :
    (∃ arr, createSequentialShuffledArray rand size = some arr ∧
      arr.length = size.toNat ∧
      arr.Perm (sequential size.toNat) ∧
      (∀ v : Int, 0 ≤ v → v < size → arr.count v = 1) ∧
      (∀ v ∈ arr, 0 ≤ v ∧ v < size) ∧
      arr.Nodup) ∧
    (size ≤ 1 → ∀ rand' : Nat → Int,
      createSequentialShuffledArray rand' size = some (sequential size.toNat)) := by
  constructor
  · obtain ⟨arr, harr, hperm⟩ := createSequentialShuffledArray_perm rand hr size hsize
    have hnd : arr.Nodup := hperm.nodup_iff.mpr (sequential_nodup _)
    have hmem : ∀ v, v ∈ arr ↔ 0 ≤ v ∧ v < size := by
      intro v
      rw [hperm.mem_iff, mem_sequential]
      constructor <;> rintro ⟨h0, h1⟩ <;> exact ⟨h0, by omega⟩
    refine ⟨arr, harr, ?_, hperm, ?_, fun v hv => (hmem v).mp hv, hnd⟩
    · rw [hperm.length_eq, sequential_length]
    · intro v h0 h1
      exact List.count_eq_one_of_mem hnd ((hmem v).mpr ⟨h0, h1⟩)
  · intro h1 rand'
    obtain ⟨n, rfl⟩ := Int.eq_ofNat_of_zero_le hsize
    have hn : n = 0 ∨ n = 1 := by omega
    unfold createSequentialShuffledArray
    rcases hn with rfl | rfl <;> simp only [Int.toNat_ofNat, fill_eq_sequential] <;> rfl

/-- C7 at `size = 10` with `rand()` results `3, 10, 17, ...`. -/
theorem C7_createSequentialShuffledArray_permutation_witness :
    (0 : Int) ≤ 10 ∧ (∀ k : Nat, (0 : Int) ≤ (fun k : Nat => (k : Int) * 7 + 3) k) ∧
    createSequentialShuffledArray (fun k => (k : Int) * 7 + 3) 10 =
      some [3, 8, 5, 0, 7, 2, 9, 4, 1, 6] ∧
    (∃ arr, createSequentialShuffledArray (fun k => (k : Int) * 7 + 3) 10 = some arr ∧
      arr.length = (10 : Int).toNat ∧
      arr.Perm (sequential (10 : Int).toNat) ∧
      (∀ v : Int, 0 ≤ v → v < 10 → arr.count v = 1) ∧
      (∀ v ∈ arr, 0 ≤ v ∧ v < 10) ∧
      arr.Nodup) :=
  ⟨by decide, fun k => by positivity, by decide,
    (C7_createSequentialShuffledArray_permutation (fun k => (k : Int) * 7 + 3) 10 (by decide)
      (fun k => by positivity)).1⟩

/-! ## The loops of `testStress` (C8) -/

theorem containsKeys_append (a b : List Event) :
    containsKeys (a ++ b) = containsKeys a ++ containsKeys b := by
  simp [containsKeys, List.filterMap_append]

theorem stressInsert_containsKeys (M : MapImpl σ) (arr : List Int) (n : Nat) (s : σ) :
    containsKeys (stressInsert M arr n s).2 = [] := by
  unfold stressInsert
  have := forEach_inv (fun _ (st : σ × List Event) => containsKeys st.2 = [])
    (stressPutBody M arr) n 0 (M.mapClear s, [Event.mapClear])
    (by
      intro j st _ _ hst
      simp only [stressPutBody, containsKeys_append, hst]
      rfl)
    rfl
  exact this

theorem stressSearch_containsKeys (M : MapImpl σ) (n : Nat) (st : σ × List Event)
    (h : containsKeys st.2 = []) :
    containsKeys (stressSearch M n st).2 = sequential n := by
  unfold stressSearch
  have := forEach_inv (fun j (t : σ × List Event) => containsKeys t.2 = sequential j)
    (stressContainsBody M) n 0 st
    (by
      intro j t _ _ ht
      simp only [stressContainsBody, containsKeys_append, ht, sequential_succ]
      rfl)
    (by show containsKeys st.2 = sequential 0; rw [h]; rfl)
  rw [Nat.zero_add] at this
  exact this

theorem forRange_succ {S : Type} (body : Nat → S → Bool × S) (i n : Nat) (s : S) :
    forRange body i (n + 1) s =
      if (body i s).1 then forRange body (i + 1) n (body i s).2 else (false, (body i s).2) := by
  rw [forRange]
  rcases body i s with ⟨b, s'⟩
  cases b <;> rfl

theorem set_zero_getElem_zero (a : List Int) (h : 0 < a.length) : a.set 0 a[0] = a := by
  apply List.ext_getElem (by simp)
  intro k h1 h2
  simp only [List.getElem_set]
  split_ifs with hk
  · subst hk; rfl
  · rfl

theorem shuffle_randOnce_tail (size : Int) (arr : List Int) (harr : 0 < arr.length)
    (m i : Nat) (hi : 0 < i) :
    forRange (shuffleBody randOnce size) i m arr = (true, arr) := by
  have := forRange_all (fun _ (a : List Int) => a = arr) (shuffleBody randOnce size) m i arr
    (by
      intro j a hj _ ha
      subst ha
      have h1 : randOnce (2 * j) = 0 := by simp [randOnce]; omega
      have h2 : randOnce (2 * j + 1) = 0 := by simp [randOnce]
      have hc : (0 : Int) ≤ 0 ∧ (0 : Int) < a.length ∧ (0 : Int) ≤ 0 ∧ (0 : Int) < a.length := by
        refine ⟨le_refl _, ?_, le_refl _, ?_⟩ <;> omega
      unfold shuffleBody
      simp only [h1, h2, Int.zero_tmod, if_pos hc, Int.toNat_zero, true_and]
      rw [List.getD_eq_getElem _ _ harr, set_zero_getElem_zero a harr,
        set_zero_getElem_zero a harr])
    rfl
  exact Prod.ext this.1 this.2

theorem createSequentialShuffledArray_randOnce (size : Int) (h : 2 ≤ size) :
    createSequentialShuffledArray randOnce size =
      some (((sequential size.toNat).set 1 0).set 0 1) := by
  obtain ⟨n, rfl⟩ := Int.eq_ofNat_of_zero_le (by omega : 0 ≤ size)
  have hn : 2 ≤ n := by omega
  obtain ⟨m, hm⟩ : ∃ m, ((n : Int).tdiv 2).toNat = m + 1 := by
    refine ⟨((n : Int).tdiv 2).toNat - 1, ?_⟩
    have : (1 : Int) ≤ (n : Int).tdiv 2 := by
      rw [Int.tdiv_eq_ediv (by omega) (by decide)]
      omega
    omega
  have hlen : (sequential n).length = n := sequential_length n
  have h0 : (sequential n).getD 0 0 = 0 := by
    rw [List.getD_eq_getElem _ _ (by omega)]
    simp [sequential]
  have h1 : (sequential n).getD 1 0 = 1 := by
    rw [List.getD_eq_getElem _ _ (by omega)]
    simp [sequential]
  have hr0 : (randOnce (2 * 0)).tmod (n : Int) = 1 := by
    show (1 : Int).tmod n = 1
    exact Int.tmod_eq_of_lt (by omega) (by omega)
  have hr1 : (randOnce (2 * 0 + 1)).tmod (n : Int) = 0 := by
    show (0 : Int).tmod n = 0
    simp
  have hc : (0 : Int) ≤ 1 ∧ (1 : Int) < (sequential n).length ∧ (0 : Int) ≤ 0 ∧
      (0 : Int) < (sequential n).length := by
    rw [hlen]; omega
  have hbody : shuffleBody randOnce (n : Int) 0 (sequential n) =
      (true, ((sequential n).set 1 0).set 0 1) := by
    unfold shuffleBody
    simp only [hr0, hr1, if_pos hc, Int.toNat_zero, show (1 : Int).toNat = 1 from rfl, h0, h1]
  unfold createSequentialShuffledArray
  simp only [Int.toNat_ofNat, fill_eq_sequential, hm, forRange_succ, hbody, if_true]
  rw [shuffle_randOnce_tail _ _ (by simp [hlen]; omega) _ _ (by omega)]
  rfl

theorem sequential_head (n : Nat) (h : 0 < n) : ∃ rest, sequential n = 0 :: rest := by
  obtain ⟨m, rfl⟩ : ∃ m, n = m + 1 := ⟨n - 1, by omega⟩
  refine ⟨(List.range' 1 m).map Int.ofNat, ?_⟩
  simp [sequential, List.range_eq_range', List.range'_succ]

theorem set_zero_head (l : List Int) (a : Int) (h : 0 < l.length) :
    ∃ rest, l.set 0 a = a :: rest := by
  cases l with
  | nil => simp at h
  | cons x xs => exact ⟨xs, rfl⟩

theorem testStressOfSize_some (M : MapImpl σ) (rand : Nat → Int) (size : Int) (s : σ)
    (arr : List Int) (h : createSequentialShuffledArray rand size = some arr) :
    testStressOfSize M rand size (some s) =
      some ((stressSearch M size.toNat (stressInsert M arr size.toNat s)).2,
        some (stressSearch M size.toNat (stressInsert M arr size.toNat s)).1) := by
  simp only [testStressOfSize, h]

theorem stress_size_pos : 0 < STRESS_TEST_SIZE.toNat := by decide

/-- C8 (behaviour of the code): with `rand()` results `1, 0, 0, ...` the
shuffled array starts with `testArr[0] = 1`, while the search loop of
`testStress` looks up the keys `0, 1, 2, ...` in increasing order, the loop
index itself: its first `mapContains` call is on key 0, not on `testArr[0]`. -/
theorem C8_search_uses_loop_index (M : MapImpl σ) (s : σ) :
    ∃ testArr tr m, createSequentialShuffledArray randOnce STRESS_TEST_SIZE = some testArr ∧
      testStress M randOnce (some s) = some (tr, m) ∧
      containsKeys tr = sequential STRESS_TEST_SIZE.toNat ∧
      (∃ rest, containsKeys tr = 0 :: rest) ∧
      (∃ rest, testArr = 1 :: rest) := by
  have harr := createSequentialShuffledArray_randOnce STRESS_TEST_SIZE (by decide)
  have hk := stressSearch_containsKeys M STRESS_TEST_SIZE.toNat _
    (stressInsert_containsKeys M (((sequential STRESS_TEST_SIZE.toNat).set 1 0).set 0 1)
      STRESS_TEST_SIZE.toNat s)
  obtain ⟨rest, hrest⟩ := sequential_head _ stress_size_pos
  exact ⟨_, _, _, harr, testStressOfSize_some M randOnce STRESS_TEST_SIZE s _ harr, hk,
    ⟨rest, hk.trans hrest⟩,
    set_zero_head _ _ (by rw [List.length_set, sequential_length]; exact stress_size_pos)⟩

/-! ## `testStress` on an implementation that meets the contract (C2) -/

theorem stressInsert_content (M : MapImpl σ) (content : σ → Int → Option Int)
    (dom : σ → Finset Int) (hC : MeetsContract M content dom) (arr : List Int) (s : σ) :
    ∀ k, content (stressInsert M arr arr.length s).1 k = if k ∈ arr then some k else none := by
  have h := forEach_inv
    (fun j (st : σ × List Event) =>
      ∀ k, content st.1 k = if k ∈ arr.take j then some k else none)
    (stressPutBody M arr) arr.length 0 (M.mapClear s, [Event.mapClear])
    (by
      intro j st _ hj hst k
      have hj' : j < arr.length := by omega
      simp only [stressPutBody, hC.put_content, hst k, List.getD_eq_getElem _ _ hj',
        List.take_succ, List.getElem?_eq_getElem hj', Option.toList_some, List.mem_append,
        List.mem_singleton]
      by_cases hk : k = arr[j]
      · simp [hk]
      · simp [hk])
    (by intro k; simp [hC.clear])
  intro k
  have := h k
  rw [Nat.zero_add, List.take_length] at this
  exact this

theorem stressSearch_of_content (M : MapImpl σ) (content : σ → Int → Option Int)
    (dom : σ → Finset Int) (hC : MeetsContract M content dom) (n : Nat)
    (st : σ × List Event)
    (hst : ∀ k : Int, 0 ≤ k → k < n → (content st.1 k).isSome = true) :
    content (stressSearch M n st).1 = content st.1 ∧
    (stressSearch M n st).2 =
      st.2 ++ (List.range n).map (fun i : Nat => Event.mapContains (i : Int) true) := by
  unfold stressSearch
  have h := forEach_inv
    (fun j (t : σ × List Event) => content t.1 = content st.1 ∧
      t.2 = st.2 ++ (List.range j).map (fun i : Nat => Event.mapContains (i : Int) true))
    (stressContainsBody M) n 0 st
    (by
      intro j t _ hj ht
      have h1 := hC.contains t.1 (j : Int)
      rw [ht.1, hst j (by omega) (by omega)] at h1
      refine ⟨by simp only [stressContainsBody]; rw [h1.2], ?_⟩
      simp only [stressContainsBody, h1.1, ht.2, List.range_succ, List.map_append,
        List.map_cons, List.map_nil, List.append_assoc])
    ⟨rfl, by simp⟩
  rw [Nat.zero_add] at h
  exact h

theorem dom_eq_Ico (M : MapImpl σ) (content : σ → Int → Option Int)
    (dom : σ → Finset Int) (hC : MeetsContract M content dom) (s : σ) (n : Int)
    (h : ∀ k, content s k = if 0 ≤ k ∧ k < n then some k else none) :
    dom s = Finset.Ico 0 n := by
  ext k
  rw [hC.dom_iff, h k, Finset.mem_Ico]
  split_ifs with hk <;> simp [hk]

/-- The statement of C2 for an arbitrary number `size ≥ 0` of mappings. -/
theorem testStressOfSize_contract (M : MapImpl σ) (content : σ → Int → Option Int)
    (dom : σ → Finset Int) (hC : MeetsContract M content dom) (rand : Nat → Int)
    (hr : ∀ k, 0 ≤ rand k) (size : Int) (hsize : 0 ≤ size) (s : σ) :
    ∃ testArr, createSequentialShuffledArray rand size = some testArr ∧
      (∀ k, content (stressInsert M testArr size.toNat s).1 k =
        if 0 ≤ k ∧ k < size then some k else none) ∧
      (dom (stressInsert M testArr size.toNat s).1).card = size.toNat ∧
      (M.mapSize (stressInsert M testArr size.toNat s).1).1 = some size ∧
      testStressOfSize M rand size (some s) =
        some ((stressSearch M size.toNat (stressInsert M testArr size.toNat s)).2,
          some (stressSearch M size.toNat (stressInsert M testArr size.toNat s)).1) ∧
      (stressSearch M size.toNat (stressInsert M testArr size.toNat s)).2 =
        (stressInsert M testArr size.toNat s).2 ++
          (List.range size.toNat).map (fun i : Nat => Event.mapContains (i : Int) true) := by
  obtain ⟨arr, harr, hperm⟩ := createSequentialShuffledArray_perm rand hr size hsize
  have hlen : arr.length = size.toNat := by rw [hperm.length_eq, sequential_length]
  have hmem : ∀ k, k ∈ arr ↔ 0 ≤ k ∧ k < size := by
    intro k
    rw [hperm.mem_iff, mem_sequential]
    constructor <;> rintro ⟨h0, h1⟩ <;> exact ⟨h0, by omega⟩
  have hcontent : ∀ k, content (stressInsert M arr size.toNat s).1 k =
      if 0 ≤ k ∧ k < size then some k else none := by
    intro k
    rw [← hlen, stressInsert_content M content dom hC arr s k]
    simp only [hmem]
  have hdom := dom_eq_Ico M content dom hC _ size hcontent
  have hcard : (dom (stressInsert M arr size.toNat s).1).card = size.toNat := by
    rw [hdom, Int.card_Ico, sub_zero]
  refine ⟨arr, harr, hcontent, hcard, ?_, testStressOfSize_some M rand size s arr harr, ?_⟩
  · rw [(hC.size _).1, hcard]
    simp [Int.toNat_of_nonneg hsize]
  · refine (stressSearch_of_content M content dom hC size.toNat _ ?_).2
    intro k h0 h1
    rw [hcontent k, if_pos ⟨h0, by omega⟩]
    rfl

/-- C2: on an implementation that meets the contract, from any initial content
and for any non-negative results of `rand()`, `testStress` completes; after
its insertion loop the map holds exactly the entries `i -> i` for
`0 ≤ i < STRESS_TEST_SIZE` (so it has, and `mapSize` would report,
`STRESS_TEST_SIZE = 100000` keys), and the search loop consists of the
100000 calls `mapContains(map, i)`, each returning true. -/
theorem C2_stress_insertion_and_search (M : MapImpl σ) (content : σ → Int → Option Int)
    (dom : σ → Finset Int) (hC : MeetsContract M content dom) (rand : Nat → Int)
    (hr : ∀ k, 0 ≤ rand k) (s : σ) :
    STRESS_TEST_SIZE = 100000 ∧
    ∃ testArr, createSequentialShuffledArray rand STRESS_TEST_SIZE = some testArr ∧
      (∀ k, content (stressInsert M testArr STRESS_TEST_SIZE.toNat s).1 k =
        if 0 ≤ k ∧ k < STRESS_TEST_SIZE then some k else none) ∧
      (dom (stressInsert M testArr STRESS_TEST_SIZE.toNat s).1).card =
        STRESS_TEST_SIZE.toNat ∧
      (M.mapSize (stressInsert M testArr STRESS_TEST_SIZE.toNat s).1).1 =
        some STRESS_TEST_SIZE ∧
      testStress M rand (some s) =
        some ((stressSearch M STRESS_TEST_SIZE.toNat
            (stressInsert M testArr STRESS_TEST_SIZE.toNat s)).2,
          some (stressSearch M STRESS_TEST_SIZE.toNat
            (stressInsert M testArr STRESS_TEST_SIZE.toNat s)).1) ∧
      (stressSearch M STRESS_TEST_SIZE.toNat
          (stressInsert M testArr STRESS_TEST_SIZE.toNat s)).2 =
        (stressInsert M testArr STRESS_TEST_SIZE.toNat s).2 ++
          (List.range STRESS_TEST_SIZE.toNat).map
            (fun i : Nat => Event.mapContains (i : Int) true) :=
  ⟨rfl, testStressOfSize_contract M content dom hC rand hr STRESS_TEST_SIZE (by decide) s⟩

/-- C2 at the reference implementation, started on the empty map. -/
theorem C2_stress_insertion_and_search_witness :
    MeetsContract refImpl (fun m => m.lookup) (fun m => m.keys.toFinset) ∧
    (∀ k, 0 ≤ (fun k : Nat => (k : Int) * 7 + 3) k) ∧
    STRESS_TEST_SIZE = 100000 ∧
    ∃ testArr,
      createSequentialShuffledArray (fun k => (k : Int) * 7 + 3) STRESS_TEST_SIZE =
        some testArr ∧
      (∀ k, (stressInsert refImpl testArr STRESS_TEST_SIZE.toNat ∅).1.lookup k =
        if 0 ≤ k ∧ k < STRESS_TEST_SIZE then some k else none) ∧
      ((stressInsert refImpl testArr STRESS_TEST_SIZE.toNat ∅).1.keys.toFinset).card =
        STRESS_TEST_SIZE.toNat ∧
      (refImpl.mapSize (stressInsert refImpl testArr STRESS_TEST_SIZE.toNat ∅).1).1 =
        some STRESS_TEST_SIZE ∧
      testStress refImpl (fun k => (k : Int) * 7 + 3) (some ∅) =
        some ((stressSearch refImpl STRESS_TEST_SIZE.toNat
            (stressInsert refImpl testArr STRESS_TEST_SIZE.toNat ∅)).2,
          some (stressSearch refImpl STRESS_TEST_SIZE.toNat
            (stressInsert refImpl testArr STRESS_TEST_SIZE.toNat ∅)).1) ∧
      (stressSearch refImpl STRESS_TEST_SIZE.toNat
          (stressInsert refImpl testArr STRESS_TEST_SIZE.toNat ∅)).2 =
        (stressInsert refImpl testArr STRESS_TEST_SIZE.toNat ∅).2 ++
          (List.range STRESS_TEST_SIZE.toNat).map
            (fun i : Nat => Event.mapContains (i : Int) true) :=
  ⟨refImpl_meetsContract, fun k => by positivity,
    C2_stress_insertion_and_search refImpl (fun m => m.lookup) (fun m => m.keys.toFinset)
      refImpl_meetsContract (fun k => (k : Int) * 7 + 3) (fun k => by positivity) ∅⟩

/-! ## The calls of the driver on an implementation that meets the contract -/

section Contract

variable {M : MapImpl σ} {content : σ → Int → Option Int} {dom : σ → Finset Int}

theorem callContains_contract (hC : MeetsContract M content dom) (i : Nat) (fr : Frame σ)
    {c : Int → Option Int} {vals : List Int} (h : Holds content c vals fr) :
    (callContains M i fr).1 = (c (keys.getD i 0)).isSome ∧
      Holds content c vals (callContains M i fr).2 ∧
      (callContains M i fr).2.ret = fr.ret ∧ (callContains M i fr).2.size = fr.size := by
  have h1 := hC.contains fr.map (keys.getD i 0)
  refine ⟨?_, ⟨?_, h.2⟩, rfl, rfl⟩
  · show (M.mapContains fr.map (keys.getD i 0)).1 = _
    rw [h1.1, h.1]
  · intro k
    show content (M.mapContains fr.map (keys.getD i 0)).2 k = c k
    rw [h1.2, h.1]

theorem callRemove_absent (hC : MeetsContract M content dom) (i : Nat) (fr : Frame σ)
    {c : Int → Option Int} {vals : List Int} (h : Holds content c vals fr)
    (hk : c (keys.getD i 0) = none) :
    (callRemove M i fr).1 = Status.MAP_EMPTY ∧ Holds content c vals (callRemove M i fr).2 := by
  have h1 := hC.remove_absent fr.map (keys.getD i 0) (by rw [h.1, hk])
  refine ⟨h1.1, ?_, h.2⟩
  intro k
  show content (M.mapRemove fr.map (keys.getD i 0)).2.2 k = c k
  rw [h1.2, h.1]

theorem callRemove_present (hC : MeetsContract M content dom) (i : Nat) (fr : Frame σ)
    {c : Int → Option Int} {vals : List Int} (h : Holds content c vals fr) (v : Int)
    (hk : c (keys.getD i 0) = some v) :
    (callRemove M i fr).2.ret = v ∧
      Holds content (fun k => if k = keys.getD i 0 then none else c k) vals
        (callRemove M i fr).2 := by
  have h1 := hC.remove_present fr.map (keys.getD i 0) v (by rw [h.1, hk])
  refine ⟨?_, ?_, h.2⟩
  · show (M.mapRemove fr.map (keys.getD i 0)).2.1.getD fr.ret = v
    rw [h1.2.1]
    rfl
  · intro k
    show content (M.mapRemove fr.map (keys.getD i 0)).2.2 k = _
    rw [h1.2.2, h.1]

theorem callGet_present (hC : MeetsContract M content dom) (i : Nat) (fr : Frame σ)
    {c : Int → Option Int} {vals : List Int} (h : Holds content c vals fr) (v : Int)
    (hk : c (keys.getD i 0) = some v) :
    (callGet M i fr).1 = Status.MAP_OK ∧ (callGet M i fr).2.ret = v ∧
      Holds content c vals (callGet M i fr).2 := by
  have h1 := hC.get_present fr.map (keys.getD i 0) v (by rw [h.1, hk])
  refine ⟨h1.1, ?_, ?_, h.2⟩
  · show (M.mapGet fr.map (keys.getD i 0)).2.1.getD fr.ret = v
    rw [h1.2.1]
    rfl
  · intro k
    show content (M.mapGet fr.map (keys.getD i 0)).2.2 k = c k
    rw [h1.2.2, h.1]

theorem callPut_contract (hC : MeetsContract M content dom) (i : Nat) (fr : Frame σ)
    {c : Int → Option Int} {vals : List Int} (h : Holds content c vals fr) :
    (callPut M i fr).1 = Status.MAP_OK ∧
      Holds content (fun k => if k = keys.getD i 0 then some (vals.getD i 0) else c k) vals
        (callPut M i fr).2 := by
  refine ⟨hC.put_status _ _ _, ?_, h.2⟩
  intro k
  show content (M.mapPut fr.map (keys.getD i 0) (fr.values.getD i 0)).2 k = _
  rw [hC.put_content, h.1, h.2]

theorem callSize_contract (hC : MeetsContract M content dom) (fr : Frame σ)
    {c : Int → Option Int} {vals : List Int} (h : Holds content c vals fr) :
    (callSize M fr).size = ((dom fr.map).card : Int) ∧ Holds content c vals (callSize M fr) := by
  have h1 := hC.size fr.map
  refine ⟨?_, ?_, h.2⟩
  · show (M.mapSize fr.map).1.getD fr.size = _
    rw [h1.1]
    rfl
  · intro k
    show content (M.mapSize fr.map).2 k = c k
    rw [h1.2, h.1]

theorem callPrint_contract (hC : MeetsContract M content dom) (fr : Frame σ)
    {c : Int → Option Int} {vals : List Int} (h : Holds content c vals fr) :
    Holds content c vals (callPrint M fr) ∧ (callPrint M fr).ret = fr.ret := by
  refine ⟨⟨?_, h.2⟩, rfl⟩
  intro k
  show content (M.mapPrint fr.map) k = c k
  rw [hC.print, h.1]

/-! ## The phases of `testKeyAccessPolicy` on such an implementation (C1) -/

theorem keys_getD_lt (j : Nat) (hj : j < keys.length) :
    j = 0 ∨ j = 1 ∨ j = 2 ∨ j = 3 ∨ j = 4 ∨ j = 5 ∨ j = 6 := by
  simp only [keys, List.length_cons, List.length_nil] at hj
  omega

theorem emptyMapPhase_contract (hC : MeetsContract M content dom) (fr : Frame σ) :
    (emptyMapPhase M fr).1 = true ∧
      Holds content (fun _ => none) fr.values (emptyMapPhase M fr).2 := by
  unfold emptyMapPhase
  have := forRange_all (fun _ t => Holds content (fun _ => none) fr.values t)
    (emptyMapBody M) keys.length 0 ({ fr with map := M.mapClear fr.map }.emit .mapClear)
    (by
      intro j t _ _ ht
      obtain ⟨c1, c2, -, -⟩ := callContains_contract hC j t ht
      obtain ⟨r1, r2⟩ := callRemove_absent hC j _ c2 rfl
      unfold emptyMapBody
      simp only [c1, r1, Option.isSome_none, Bool.false_eq_true, if_false, ne_eq,
        not_true_eq_false]
      exact ⟨trivial, r2⟩)
    ⟨fun k => hC.clear fr.map k, rfl⟩
  exact this

theorem putPhase_contract (hC : MeetsContract M content dom) (fr : Frame σ)
    (h : Holds content (fun _ => none) values fr) :
    (putPhase M fr).1 = true ∧ Holds content (contentAfterPuts 7) values (putPhase M fr).2 := by
  unfold putPhase
  have := forRange_all (fun j t => Holds content (contentAfterPuts j) values t)
    (putBody M) keys.length 0 fr
    (by
      intro j t _ _ ht
      obtain ⟨p1, p2⟩ := callPut_contract hC j t ht
      unfold putBody
      simp only [p1, ne_eq, not_true_eq_false, if_false]
      exact ⟨trivial, p2⟩)
    h
  exact this

theorem contentAfterPuts_ne_none (k : Int) (h : contentAfterPuts 7 k ≠ none) : k ∈ keys := by
  simp only [contentAfterPuts, keys, values, List.getD_cons_zero, List.getD_cons_succ] at h
  simp only [keys, List.mem_cons, List.mem_singleton, List.not_mem_nil, or_false]
  by_contra hk
  simp only [not_or] at hk
  obtain ⟨h1, h4, h7, h2, h8, h5, h19⟩ := hk
  simp [h1, h4, h7, h2, h8, h5, h19] at h

theorem contentAfterPuts_keys (j : Nat) (hj : j < keys.length) :
    contentAfterPuts 7 (keys.getD j 0) = some (values.getD j 0) := by
  rcases keys_getD_lt j hj with h | h | h | h | h | h | h <;> subst h <;> decide

theorem contentReplaced_keys (j : Nat) (hj : j < keys.length) :
    contentReplaced (keys.getD j 0) = some ((values.set 0 100).getD j 0) := by
  rcases keys_getD_lt j hj with h | h | h | h | h | h | h <;> subst h <;> decide

theorem keys_not_mem_take (j : Nat) (hj : j < keys.length) :
    keys.getD j 0 ∉ keys.take j := by
  rcases keys_getD_lt j hj with h | h | h | h | h | h | h <;> subst h <;> decide

theorem mem_keys_take_succ (j : Nat) (hj : j < keys.length) (k : Int) :
    k ∈ keys.take (j + 1) ↔ k = keys.getD j 0 ∨ k ∈ keys.take j := by
  rw [List.take_succ, List.getElem?_eq_getElem hj, List.getD_eq_getElem _ _ hj]
  simp only [Option.toList_some, List.mem_append, List.mem_singleton]
  tauto

theorem dom_afterPuts (hC : MeetsContract M content dom) (s : σ)
    (h : ∀ k, content s k = contentAfterPuts 7 k) : (dom s).card = 7 := by
  have : dom s = ({1, 4, 7, 2, 8, 5, 19} : Finset Int) := by
    ext k
    rw [hC.dom_iff, h k]
    constructor
    · intro hk
      simpa [keys] using contentAfterPuts_ne_none k hk
    · intro hk
      simp only [Finset.mem_insert, Finset.mem_singleton] at hk
      rcases hk with r | r | r | r | r | r | r <;> subst r <;> decide
  rw [this]
  rfl

theorem dom_empty (hC : MeetsContract M content dom) (s : σ)
    (h : ∀ k, content s k = none) : (dom s).card = 0 := by
  have : dom s = ∅ := by
    ext k
    rw [hC.dom_iff, h k]
    simp
  rw [this]
  rfl

theorem sizePhase_contract (hC : MeetsContract M content dom) (fr : Frame σ)
    (h : Holds content (contentAfterPuts 7) values fr) :
    (sizePhase M fr).1 = true ∧ Holds content (contentAfterPuts 7) values (sizePhase M fr).2 ∧
      (sizePhase M fr).2.size = 7 := by
  obtain ⟨s1, s2⟩ := callSize_contract hC fr h
  rw [dom_afterPuts hC fr.map h.1] at s1
  have hs : (callSize M fr).size = 7 := by rw [s1]; rfl
  unfold sizePhase
  simp only [hs]
  exact ⟨rfl, s2, hs⟩

theorem lookupPhase_contract (hC : MeetsContract M content dom) (fr : Frame σ)
    (h : Holds content (contentAfterPuts 7) values fr) (hsize : fr.size = 7) :
    (lookupPhase M fr).1 = true ∧
      Holds content (contentAfterPuts 7) values (lookupPhase M fr).2 := by
  unfold lookupPhase
  rw [hsize]
  have := forRange_all (fun _ t => Holds content (contentAfterPuts 7) values t)
    (lookupBody M) (7 : Int).toNat 0 fr
    (by
      intro j t _ hj ht
      have hj' : j < keys.length := by simpa [keys] using hj
      have hk := contentAfterPuts_keys j hj'
      obtain ⟨c1, c2, -, -⟩ := callContains_contract hC j t ht
      obtain ⟨g1, g2, g3⟩ := callGet_present hC j _ c2 _ hk
      unfold lookupBody
      simp only [c1, hk, Option.isSome_some, Bool.not_true, Bool.false_eq_true, if_false, g1,
        ne_eq, not_true_eq_false, retDiffers, g2, g3.2, bne_self_eq_false]
      exact ⟨trivial, g3.1, g3.2⟩)
    h
  exact this

theorem replace_contract (hC : MeetsContract M content dom) (fr : Frame σ)
    (h : Holds content (contentAfterPuts 7) values fr) :
    (replacePut M fr).1 = true ∧
      (replaceCheck M (replacePut M fr).2).1 = true ∧
      Holds content contentReplaced (values.set 0 100) (replaceCheck M (replacePut M fr).2).2 ∧
      (replaceCheck M (replacePut M fr).2).2.ret = 100 := by
  have h1 : Holds content (contentAfterPuts 7) (values.set 0 100)
      ({ fr with values := fr.values.set 0 100 }.emit (.writeValues 0)) :=
    ⟨h.1, by show fr.values.set 0 100 = _; rw [h.2]⟩
  obtain ⟨-, p2⟩ := callPut_contract hC 0 _ h1
  have p3 : Holds content contentReplaced (values.set 0 100) (replacePut M fr).2 := p2
  have hk : contentReplaced (keys.getD 0 0) = some 100 := by decide
  obtain ⟨-, g2, g3⟩ := callGet_present hC 0 _ p3 _ hk
  refine ⟨rfl, ?_, ?_, ?_⟩
  · unfold replaceCheck
    simp only [retDiffers, g2, g3.2]
    rfl
  · unfold replaceCheck
    simp only [retDiffers, g2, g3.2]
    exact ⟨g3.1, g3.2⟩
  · unfold replaceCheck
    simp only [retDiffers, g2, g3.2]
    exact g2

theorem removalPhase_contract (hC : MeetsContract M content dom) (fr : Frame σ)
    (h : Holds content contentReplaced (values.set 0 100) fr) :
    (removalPhase M fr).1 = true ∧
      Holds content (fun _ => none) (values.set 0 100) (removalPhase M fr).2 := by
  unfold removalPhase
  have := forRange_all
    (fun j t => Holds content (contentAfterRemovals j) (values.set 0 100) t)
    (removalBody M) keys.length 0 (callPrint M fr)
    (by
      intro j t _ hj ht
      have hj' : j < keys.length := by simpa using hj
      have hk : contentAfterRemovals j (keys.getD j 0) =
          some ((values.set 0 100).getD j 0) := by
        unfold contentAfterRemovals
        rw [if_neg (keys_not_mem_take j hj'), contentReplaced_keys j hj']
      obtain ⟨r1, r2⟩ := callRemove_present hC j t ht _ hk
      have r3 : Holds content (contentAfterRemovals (j + 1)) (values.set 0 100)
          (callRemove M j t).2 := by
        refine ⟨fun k => ?_, r2.2⟩
        rw [r2.1 k]
        show (if k = keys.getD j 0 then none else contentAfterRemovals j k) =
          contentAfterRemovals (j + 1) k
        unfold contentAfterRemovals
        by_cases hkk : k = keys.getD j 0
        · rw [if_pos hkk, if_pos ((mem_keys_take_succ j hj' k).mpr (Or.inl hkk))]
        · rw [if_neg hkk]
          by_cases hm : k ∈ keys.take j
          · rw [if_pos hm, if_pos ((mem_keys_take_succ j hj' k).mpr (Or.inr hm))]
          · rw [if_neg hm, if_neg (fun hh => ((mem_keys_take_succ j hj' k).mp hh).elim hkk hm)]
      have r4 : Holds content (contentAfterRemovals (j + 1)) (values.set 0 100)
          (retDiffers j (callRemove M j t).2).2 := r3
      obtain ⟨c1, c2, -, -⟩ := callContains_contract hC j _ r4
      have hnone : contentAfterRemovals (j + 1) (keys.getD j 0) = none := by
        unfold contentAfterRemovals
        rw [if_pos ((mem_keys_take_succ j hj' _).mpr (Or.inl rfl))]
      have hd : (retDiffers j (callRemove M j t).2).1 = false := by
        show ((callRemove M j t).2.ret != (callRemove M j t).2.values.getD j 0) = false
        rw [r1, r2.2]
        simp
      unfold removalBody
      simp only [hd, c1, hnone, Option.isSome_none, Bool.false_eq_true, if_false]
      exact ⟨trivial, c2⟩)
    (by
      have := (callPrint_contract hC fr h).1
      refine ⟨fun k => ?_, this.2⟩
      rw [this.1 k]
      simp [contentAfterRemovals])
  refine ⟨this.1, fun k => ?_, this.2.2⟩
  rw [this.2.1 k]
  show contentAfterRemovals 7 k = none
  unfold contentAfterRemovals contentReplaced
  by_cases hk : k ∈ keys
  · rw [if_pos (by simpa [keys] using hk)]
  · rw [if_neg (by simpa [keys] using hk)]
    have h1 : k ≠ 1 := by
      intro h1; apply hk; rw [h1]; decide
    rw [if_neg h1]
    by_contra hne
    exact hk (contentAfterPuts_ne_none k hne)

theorem finalPhase_contract (hC : MeetsContract M content dom) (fr : Frame σ)
    {vals : List Int} (h : Holds content (fun _ => none) vals fr) :
    (finalPhase M fr).1 = true := by
  obtain ⟨s1, -⟩ := callSize_contract hC fr h
  rw [dom_empty hC fr.map h.1] at s1
  have hs : (callSize M fr).size = 0 := by rw [s1]; rfl
  unfold finalPhase
  simp only [hs, if_true]

end Contract

/-- C1: on every implementation that meets the contract, for every initial
content of a non-`NULL` map (and whatever the uninitialised `ret` and `size`
hold), `testKeyAccessPolicy` returns true. -/
theorem C1_conforming_map_passes (M : MapImpl σ) (content : σ → Int → Option Int)
    (dom : σ → Finset Int) (hC : MeetsContract M content dom) (s : σ) (ret0 size0 : Int) :
    (testKeyAccessPolicy M (some s) ret0 size0).passed = true := by
  rw [testKeyAccessPolicy_passed_some]
  obtain ⟨e1, e2⟩ := emptyMapPhase_contract hC (initFrame s ret0 size0)
  obtain ⟨p1, p2⟩ := putPhase_contract hC _ e2
  obtain ⟨s1, s2, s3⟩ := sizePhase_contract hC _ p2
  obtain ⟨l1, l2⟩ := lookupPhase_contract hC _ s2 s3
  obtain ⟨r1, r2, r3, -⟩ := replace_contract hC _ l2
  obtain ⟨m1, m2⟩ := removalPhase_contract hC _ r3
  have f1 := finalPhase_contract hC _ m2
  unfold testKeyAccessPolicyBody uptoReplacingPut uptoSizeCheck
  rw [andThen_of_true _ _ e1, andThen_of_true _ _ p1, andThen_of_true _ _ s1,
    andThen_of_true _ _ l1, andThen_of_true _ _ r1, andThen_of_true _ _ r2,
    andThen_of_true _ _ m1]
  exact f1

/-- C1 at the reference implementation, started on a map holding `3 -> 4`. -/
theorem C1_conforming_map_passes_witness :
    MeetsContract refImpl (fun m => m.lookup) (fun m => m.keys.toFinset) ∧
    (testKeyAccessPolicy refImpl (some ((∅ : AList (fun _ : Int => Int)).insert 3 4)) 9 (-2)).passed
      = true :=
  ⟨refImpl_meetsContract, C1_conforming_map_passes refImpl (fun m => m.lookup)
    (fun m => m.keys.toFinset) refImpl_meetsContract _ 9 (-2)⟩

/-! ## What the locals hold after each phase, for an arbitrary implementation (C3, C4) -/

theorem removeOuts_append (a b : List Event) :
    removeOuts (a ++ b) = removeOuts a ++ removeOuts b := by
  simp [removeOuts, List.filterMap_append]

theorem callContains_fields (M : MapImpl σ) (i : Nat) (fr : Frame σ) :
    (callContains M i fr).2.values = fr.values ∧ (callContains M i fr).2.size = fr.size ∧
    (callContains M i fr).2.ret = fr.ret ∧
    removeOuts (callContains M i fr).2.trace = removeOuts fr.trace := by
  refine ⟨rfl, rfl, rfl, ?_⟩
  show removeOuts (fr.trace ++ [.readKeys i] ++ [.mapContains _ _]) = _
  simp [removeOuts_append, removeOuts]

theorem callGet_fields (M : MapImpl σ) (i : Nat) (fr : Frame σ) :
    (callGet M i fr).2.values = fr.values ∧ (callGet M i fr).2.size = fr.size ∧
    (callGet M i fr).2.ret = (M.mapGet fr.map (keys.getD i 0)).2.1.getD fr.ret ∧
    removeOuts (callGet M i fr).2.trace = removeOuts fr.trace := by
  refine ⟨rfl, rfl, rfl, ?_⟩
  show removeOuts (fr.trace ++ [.readKeys i] ++ [.mapGet _ _ _]) = _
  simp [removeOuts_append, removeOuts]

theorem callRemove_fields (M : MapImpl σ) (i : Nat) (fr : Frame σ) :
    (callRemove M i fr).2.values = fr.values ∧ (callRemove M i fr).2.size = fr.size ∧
    (callRemove M i fr).2.ret = (M.mapRemove fr.map (keys.getD i 0)).2.1.getD fr.ret ∧
    removeOuts (callRemove M i fr).2.trace =
      removeOuts fr.trace ++ [(keys.getD i 0, (M.mapRemove fr.map (keys.getD i 0)).2.1)] := by
  refine ⟨rfl, rfl, rfl, ?_⟩
  show removeOuts (fr.trace ++ [.readKeys i] ++ [.mapRemove _ _ _]) = _
  simp [removeOuts_append, removeOuts]

theorem callPut_fields (M : MapImpl σ) (i : Nat) (fr : Frame σ) :
    (callPut M i fr).2.values = fr.values ∧ (callPut M i fr).2.size = fr.size ∧
    (callPut M i fr).2.ret = fr.ret ∧
    removeOuts (callPut M i fr).2.trace = removeOuts fr.trace := by
  refine ⟨rfl, rfl, rfl, ?_⟩
  show removeOuts (fr.trace ++ [.readKeys i] ++ [.readValues i] ++ [.mapPut _ _ _]) = _
  simp [removeOuts_append, removeOuts]

theorem callSize_fields (M : MapImpl σ) (fr : Frame σ) :
    (callSize M fr).values = fr.values ∧ (callSize M fr).ret = fr.ret ∧
    removeOuts (callSize M fr).trace = removeOuts fr.trace := by
  refine ⟨rfl, rfl, ?_⟩
  show removeOuts (fr.trace ++ [.mapSize _]) = _
  simp [removeOuts_append, removeOuts]

theorem callPrint_fields (M : MapImpl σ) (fr : Frame σ) :
    (callPrint M fr).values = fr.values ∧ (callPrint M fr).size = fr.size ∧
    (callPrint M fr).ret = fr.ret ∧
    removeOuts (callPrint M fr).trace = removeOuts fr.trace := by
  refine ⟨rfl, rfl, rfl, ?_⟩
  show removeOuts (fr.trace ++ [.mapPrint]) = _
  simp [removeOuts_append, removeOuts]

theorem retDiffers_fields (i : Nat) (fr : Frame σ) :
    (retDiffers i fr).2.values = fr.values ∧ (retDiffers i fr).2.size = fr.size ∧
    (retDiffers i fr).2.ret = fr.ret ∧ (retDiffers i fr).2.map = fr.map ∧
    removeOuts (retDiffers i fr).2.trace = removeOuts fr.trace ∧
    ((retDiffers i fr).1 = false ↔ fr.ret = fr.values.getD i 0) := by
  refine ⟨rfl, rfl, rfl, rfl, ?_, ?_⟩
  · show removeOuts (fr.trace ++ [.readValues i]) = _
    simp [removeOuts_append, removeOuts]
  · simp [retDiffers]

theorem emptyMapPhase_fields (M : MapImpl σ) (fr : Frame σ)
    (ht : (emptyMapPhase M fr).1 = true) :
    (emptyMapPhase M fr).2.values = fr.values ∧
    (removeOuts (emptyMapPhase M fr).2.trace).length = (removeOuts fr.trace).length + 7 := by
  unfold emptyMapPhase at ht ⊢
  have := forRange_inv
    (fun j t => t.values = fr.values ∧
      (removeOuts t.trace).length = (removeOuts fr.trace).length + j)
    (emptyMapBody M) keys.length 0 ({ fr with map := M.mapClear fr.map }.emit .mapClear)
    (by
      intro j t _ _ hP hb
      obtain ⟨c1, -, -, c4⟩ := callContains_fields M j t
      obtain ⟨r1, -, -, r4⟩ := callRemove_fields M j (callContains M j t).2
      unfold emptyMapBody at hb ⊢
      simp only at hb ⊢
      split_ifs at hb ⊢
      refine ⟨by rw [r1, c1, hP.1], ?_⟩
      rw [r4, c4, List.length_append, hP.2]
      rfl)
    ⟨rfl, by
      show (removeOuts (fr.trace ++ [.mapClear])).length = _
      simp [removeOuts_append, removeOuts]⟩
    ht
  exact this

theorem putPhase_fields (M : MapImpl σ) (fr : Frame σ) :
    (putPhase M fr).2.values = fr.values ∧
    removeOuts (putPhase M fr).2.trace = removeOuts fr.trace := by
  unfold putPhase
  apply forRange_preserves
    (fun t : Frame σ => t.values = fr.values ∧ removeOuts t.trace = removeOuts fr.trace)
  · intro j t _ _ hP
    obtain ⟨p1, -, -, p4⟩ := callPut_fields M j t
    unfold putBody
    simp only
    split_ifs <;> exact ⟨by rw [p1, hP.1], by rw [p4, hP.2]⟩
  · exact ⟨rfl, rfl⟩

theorem sizePhase_fields (M : MapImpl σ) (fr : Frame σ) :
    (sizePhase M fr).2.values = fr.values ∧
    removeOuts (sizePhase M fr).2.trace = removeOuts fr.trace := by
  obtain ⟨s1, -, s3⟩ := callSize_fields M fr
  unfold sizePhase
  simp only
  split_ifs <;> exact ⟨s1, s3⟩

theorem lookupBody_fields (M : MapImpl σ) (j : Nat) (t : Frame σ) :
    (lookupBody M j t).2.values = t.values ∧ (lookupBody M j t).2.size = t.size ∧
    removeOuts (lookupBody M j t).2.trace = removeOuts t.trace ∧
    ((lookupBody M j t).1 = true → (lookupBody M j t).2.ret = t.values.getD j 0) := by
  obtain ⟨c1, c2, -, c4⟩ := callContains_fields M j t
  obtain ⟨g1, g2, -, g4⟩ := callGet_fields M j (callContains M j t).2
  obtain ⟨d1, d2, d3, -, d5, d6⟩ := retDiffers_fields j (callGet M j (callContains M j t).2).2
  unfold lookupBody
  simp only
  split_ifs with h1 h2 h3
  · exact ⟨c1, c2, c4, by simp⟩
  · exact ⟨by rw [g1, c1], by rw [g2, c2], by rw [g4, c4], by simp⟩
  · exact ⟨by rw [d1, g1, c1], by rw [d2, g2, c2], by rw [d5, g4, c4], by simp⟩
  · refine ⟨by rw [d1, g1, c1], by rw [d2, g2, c2], by rw [d5, g4, c4], fun _ => ?_⟩
    rw [d3, d6.mp (by simpa using h3), g1, c1]

theorem lookupPhase_fields (M : MapImpl σ) (fr : Frame σ) :
    (lookupPhase M fr).2.values = fr.values ∧ (lookupPhase M fr).2.size = fr.size ∧
    removeOuts (lookupPhase M fr).2.trace = removeOuts fr.trace := by
  unfold lookupPhase
  apply forRange_preserves
    (fun t : Frame σ => t.values = fr.values ∧ t.size = fr.size ∧
      removeOuts t.trace = removeOuts fr.trace)
  · intro j t _ _ hP
    obtain ⟨b1, b2, b3, -⟩ := lookupBody_fields M j t
    exact ⟨by rw [b1, hP.1], by rw [b2, hP.2.1], by rw [b3, hP.2.2]⟩
  · exact ⟨rfl, rfl, rfl⟩

theorem replacePut_fields (M : MapImpl σ) (fr : Frame σ) :
    (replacePut M fr).2.values = fr.values.set 0 100 ∧ (replacePut M fr).2.size = fr.size ∧
    (replacePut M fr).2.ret = fr.ret ∧
    removeOuts (replacePut M fr).2.trace = removeOuts fr.trace := by
  refine ⟨rfl, rfl, rfl, ?_⟩
  unfold replacePut
  rw [(callPut_fields M 0 _).2.2.2]
  show removeOuts (fr.trace ++ [.writeValues 0]) = _
  simp [removeOuts_append, removeOuts]

theorem replaceCheck_fields (M : MapImpl σ) (fr : Frame σ) :
    (replaceCheck M fr).2.values = fr.values ∧ (replaceCheck M fr).2.size = fr.size ∧
    (replaceCheck M fr).2.ret = (M.mapGet fr.map (keys.getD 0 0)).2.1.getD fr.ret ∧
    removeOuts (replaceCheck M fr).2.trace = removeOuts fr.trace ∧
    ((replaceCheck M fr).1 = true →
      (M.mapGet fr.map (keys.getD 0 0)).2.1.getD fr.ret = fr.values.getD 0 0) := by
  obtain ⟨g1, g2, g3, g4⟩ := callGet_fields M 0 fr
  obtain ⟨d1, d2, d3, -, d5, d6⟩ := retDiffers_fields 0 (callGet M 0 fr).2
  unfold replaceCheck
  simp only
  split_ifs with h
  · exact ⟨by rw [d1, g1], by rw [d2, g2], by rw [d3, g3], by rw [d5, g4], by simp⟩
  · refine ⟨by rw [d1, g1], by rw [d2, g2], by rw [d3, g3], by rw [d5, g4], fun _ => ?_⟩
    rw [← g3, d6.mp (by simpa using h), g1]

theorem removalBody_fields (M : MapImpl σ) (j : Nat) (t : Frame σ)
    (hb : (removalBody M j t).1 = true) :
    (removalBody M j t).2.values = t.values ∧ (removalBody M j t).2.size = t.size ∧
    (removalBody M j t).2.ret = t.values.getD j 0 ∧
    (M.mapRemove t.map (keys.getD j 0)).2.1.getD t.ret = t.values.getD j 0 ∧
    removeOuts (removalBody M j t).2.trace =
      removeOuts t.trace ++ [(keys.getD j 0, (M.mapRemove t.map (keys.getD j 0)).2.1)] := by
  obtain ⟨r1, r2, r3, r4⟩ := callRemove_fields M j t
  obtain ⟨d1, d2, d3, -, d5, d6⟩ := retDiffers_fields j (callRemove M j t).2
  obtain ⟨c1, c2, c3, c4⟩ := callContains_fields M j (retDiffers j (callRemove M j t).2).2
  unfold removalBody at hb ⊢
  simp only at hb ⊢
  split_ifs at hb ⊢ with h1 h2
  have hd := d6.mp (by simpa using h1)
  rw [r1] at hd
  exact ⟨by rw [c1, d1, r1], by rw [c2, d2, r2], by rw [c3, d3, hd], by rw [← r3, hd],
    by rw [c4, d5, r4]⟩

theorem getD_eq_of_ne {w : Option Int} {a b : Int} (h : w.getD a = b) (hne : a ≠ b) :
    w = some b := by
  cases w with
  | none => exact absurd h hne
  | some v => exact congrArg some h

theorem getD_eq_self {w : Option Int} {a : Int} (h : w.getD a = a) : w = none ∨ w = some a := by
  cases w with
  | none => exact Or.inl rfl
  | some v => exact Or.inr (congrArg some h)

theorem removalPhase_fields (M : MapImpl σ) (fr : Frame σ)
    (hv : fr.values = values.set 0 100) (hr : fr.ret = 100)
    (ht : (removalPhase M fr).1 = true) :
    (removalPhase M fr).2.size = fr.size ∧
    ∃ w, (w = none ∨ w = some 100) ∧
      removeOuts (removalPhase M fr).2.trace = removeOuts fr.trace ++ removalOuts w := by
  obtain ⟨p1, p2, p3, p4⟩ := callPrint_fields M fr
  unfold removalPhase at ht ⊢
  have := forRange_inv
    (fun j t => t.values = values.set 0 100 ∧ t.size = fr.size ∧
      (j = 0 → t.ret = 100 ∧ removeOuts t.trace = removeOuts fr.trace) ∧
      (0 < j → t.ret = (values.set 0 100).getD (j - 1) 0 ∧
        ∃ w, (w = none ∨ w = some 100) ∧
          removeOuts t.trace = removeOuts fr.trace ++ (removalOuts w).take j))
    (removalBody M) keys.length 0 (callPrint M fr)
    (by
      intro j t _ hj hP hb
      obtain ⟨b1, b2, b3, b4, b5⟩ := removalBody_fields M j t hb
      obtain ⟨q1, q2, q3, q4⟩ := hP
      rw [q1] at b1 b3 b4
      refine ⟨b1, by rw [b2, q2], fun h => absurd h (by omega), fun _ => ⟨b3, ?_⟩⟩
      have hj' : j < keys.length := by simpa using hj
      rcases keys_getD_lt j hj' with h | h | h | h | h | h | h <;> subst h
      · obtain ⟨q5, q6⟩ := q3 rfl
        rw [q5] at b4
        refine ⟨_, getD_eq_self b4, ?_⟩
        rw [b5, q6]
        rfl
      all_goals
        obtain ⟨q5, w, hw, q6⟩ := q4 (by decide)
        rw [q5] at b4
        have hw' := getD_eq_of_ne b4 (by decide)
        refine ⟨w, hw, ?_⟩
        rw [b5, q6, hw', List.append_assoc]
        rfl)
    ⟨by rw [p1, hv], p2, fun _ => ⟨by rw [p3, hr], p4⟩, fun h => absurd h (by decide)⟩
    ht
  obtain ⟨-, s2, -, s4⟩ := this
  obtain ⟨-, w, hw, hq⟩ := s4 (by decide)
  exact ⟨s2, w, hw, hq⟩

theorem finalPhase_fields (M : MapImpl σ) (fr : Frame σ) (ht : (finalPhase M fr).1 = true) :
    (finalPhase M fr).2.size = 0 ∧
    removeOuts (finalPhase M fr).2.trace = removeOuts fr.trace := by
  obtain ⟨-, -, s3⟩ := callSize_fields M fr
  obtain ⟨-, p2, -, p4⟩ := callPrint_fields M (callSize M fr)
  unfold finalPhase at ht ⊢
  simp only at ht ⊢
  split_ifs at ht ⊢ with h
  exact ⟨by rw [p2, h], by rw [p4, s3]⟩

/-- A passing run went through every phase; the frames in between. -/
theorem testKeyAccessPolicyBody_true (M : MapImpl σ) (fr : Frame σ)
    (hp : (testKeyAccessPolicyBody M fr).1 = true) :
    (emptyMapPhase M fr).1 = true ∧
    (putPhase M (emptyMapPhase M fr).2).1 = true ∧
    uptoSizeCheck M fr = sizePhase M (putPhase M (emptyMapPhase M fr).2).2 ∧
    (uptoSizeCheck M fr).1 = true ∧
    (lookupPhase M (uptoSizeCheck M fr).2).1 = true ∧
    uptoReplacingPut M fr = replacePut M (lookupPhase M (uptoSizeCheck M fr).2).2 ∧
    (replaceCheck M (uptoReplacingPut M fr).2).1 = true ∧
    (removalPhase M (replaceCheck M (uptoReplacingPut M fr).2).2).1 = true ∧
    (finalPhase M (removalPhase M (replaceCheck M (uptoReplacingPut M fr).2).2).2).1 = true ∧
    testKeyAccessPolicyBody M fr =
      finalPhase M (removalPhase M (replaceCheck M (uptoReplacingPut M fr).2).2).2 := by
  have hp' := hp
  unfold testKeyAccessPolicyBody at hp'
  rw [andThen_true, andThen_true, andThen_true] at hp'
  obtain ⟨⟨⟨h5, h6⟩, h7⟩, h8⟩ := hp'
  have e6 := andThen_of_true _ (replaceCheck M) h5
  rw [e6] at h7 h8
  have e7 := andThen_of_true _ (removalPhase M) h6
  rw [e7] at h8
  have h5' := h5
  unfold uptoReplacingPut at h5'
  rw [andThen_true, andThen_true] at h5'
  obtain ⟨⟨h3, h4⟩, -⟩ := h5'
  have h3' := h3
  unfold uptoSizeCheck at h3'
  rw [andThen_true, andThen_true] at h3'
  obtain ⟨⟨h1, h2⟩, -⟩ := h3'
  have e2 := andThen_of_true _ (putPhase M) h1
  have e3 : uptoSizeCheck M fr = sizePhase M (putPhase M (emptyMapPhase M fr).2).2 := by
    unfold uptoSizeCheck
    rw [andThen_of_true _ _ (by rw [e2]; exact h2), e2]
  have e4 := andThen_of_true _ (lookupPhase M) h3
  have e5 : uptoReplacingPut M fr = replacePut M (lookupPhase M (uptoSizeCheck M fr).2).2 := by
    unfold uptoReplacingPut
    rw [andThen_of_true _ _ (by rw [e4]; exact h4), e4]
  refine ⟨h1, h2, e3, h3, h4, e5, h6, h7, h8, ?_⟩
  unfold testKeyAccessPolicyBody
  rw [andThen_of_true _ _ (by rw [e6, e7]; exact h7), e6, e7]

set_option maxRecDepth 4000 in
/-- C3 (as stated, refuted): `lazyImpl` passes `testKeyAccessPolicy` although
its `mapRemove` call for key 1 in the removal phase stores nothing through the
out-parameter: `ret` still holds the 100 left there by the preceding
`mapGet`. -/
theorem C3_counterexample_silent_first_remove :
    (testKeyAccessPolicy lazyImpl (some []) 0 0).passed = true ∧
    (removeOuts (testKeyAccessPolicy lazyImpl (some []) 0 0).trace).drop 7 =
      [(1, none), (4, some 1), (7, some 2), (2, some 3), (8, some 4), (5, some 5),
        (19, some 6)] := by
  refine ⟨by decide, by decide⟩

/-- C3 (amended): when `testKeyAccessPolicy` returns true, the run made
fourteen `mapRemove` calls, seven on the just-cleared map and the seven of the
removal phase; of the latter, the calls for keys 4, 7, 2, 8, 5, 19 stored the
values 1, 2, 3, 4, 5, 6 last put under these keys, and the call for key 1
either stored 100 or stored nothing (`ret` then still holds the 100 read by
the preceding `mapGet`). -/
theorem C3_removal_outputs_of_passing_run (M : MapImpl σ) (s : σ) (ret0 size0 : Int)
    (hp : (testKeyAccessPolicy M (some s) ret0 size0).passed = true) :
    ∃ pre w, pre.length = 7 ∧ (w = none ∨ w = some 100) ∧
      removeOuts (testKeyAccessPolicy M (some s) ret0 size0).trace = pre ++ removalOuts w := by
  rw [testKeyAccessPolicy_passed_some] at hp
  rw [testKeyAccessPolicy_trace_some]
  obtain ⟨h1, h2, e3, h3, h4, e5, h6, h7, h8, e8⟩ := testKeyAccessPolicyBody_true M _ hp
  obtain ⟨a1, a2⟩ := emptyMapPhase_fields M (initFrame s ret0 size0) h1
  obtain ⟨b1, b2⟩ := putPhase_fields M (emptyMapPhase M (initFrame s ret0 size0)).2
  obtain ⟨c1, c2⟩ := sizePhase_fields M
    (putPhase M (emptyMapPhase M (initFrame s ret0 size0)).2).2
  rw [← e3] at c1 c2
  obtain ⟨d1, -, d3⟩ := lookupPhase_fields M (uptoSizeCheck M (initFrame s ret0 size0)).2
  obtain ⟨p1, -, -, p4⟩ := replacePut_fields M
    (lookupPhase M (uptoSizeCheck M (initFrame s ret0 size0)).2).2
  rw [← e5] at p1 p4
  obtain ⟨q1, -, q3, q4, q5⟩ := replaceCheck_fields M
    (uptoReplacingPut M (initFrame s ret0 size0)).2
  have hvals : (uptoReplacingPut M (initFrame s ret0 size0)).2.values = values.set 0 100 := by
    rw [p1, d1, c1, b1, a1]
    rfl
  have hret : (replaceCheck M (uptoReplacingPut M (initFrame s ret0 size0)).2).2.ret = 100 := by
    rw [q3, q5 h6, hvals]
    rfl
  obtain ⟨-, w, hw, hq⟩ := removalPhase_fields M _ (by rw [q1, hvals]) hret h7
  obtain ⟨-, f2⟩ := finalPhase_fields M _ h8
  refine ⟨removeOuts (emptyMapPhase M (initFrame s ret0 size0)).2.trace, w, ?_, hw, ?_⟩
  · rw [a2]
    rfl
  · rw [e8, f2, hq, q4, p4, d3, c2, b2]

/-- C3 (amended) at `lazyImpl`, which passes. -/
theorem C3_removal_outputs_of_passing_run_witness :
    (testKeyAccessPolicy lazyImpl (some []) 0 0).passed = true ∧
    ∃ pre w, pre.length = 7 ∧ (w = none ∨ w = some 100) ∧
      removeOuts (testKeyAccessPolicy lazyImpl (some []) 0 0).trace = pre ++ removalOuts w :=
  ⟨by decide, C3_removal_outputs_of_passing_run lazyImpl [] 0 0 (by decide)⟩

end ADTMap
